import Mathlib

/-!
Verification of the dependency-manifest parsing engine
(`parse_requirement_file.py`, `find_requirement_files.py`).

Strings manipulated by the parsers are modelled as `List Char` (named
`Str` below); Python string primitives (`strip`, `split`, `startswith`,
`rfind`, ...) are given explicit executable definitions on `List Char`.
Loaded JSON documents (the result of `json.load`) are modelled by the
inductive `Json`; a failed `json.load` (a `JSONDecodeError`) is modelled
by passing the decode result as an `Except Str Json` value to
`parse_requirements`.  Python exceptions that escape a parser are
modelled with the error type `PyErr`.
-/

/-- Character lists standing for Python strings. -/
abbrev Str := List Char

/-- Dependency record: package name and version spec. -/
abbrev Rec := Str × Str

/-- Python exceptions that the parsing code can raise. -/
inductive PyErr where
  /-- RuntimeError raised by parse_requirements, with its message. -/
  | runtime (msg : Str)
  /-- AttributeError raised by calling .get on a non-dict value. -/
  | attr
  /-- IndexError raised by list indexing on an empty list. -/
  | index
  deriving DecidableEq, Repr

/-- Whitespace test used by Python str.strip (space, tab, CR, LF). -/
def isWS (c : Char) : Bool := c = ' ' || c = '\t' || c = '\r' || c = '\n'

/-- Python str.lstrip with no argument. -/
def lstrip (l : Str) : Str := l.dropWhile isWS

/-- Python str.rstrip with no argument. -/
def rstrip (l : Str) : Str := (l.reverse.dropWhile isWS).reverse

/-- Python str.strip with no argument. -/
def pstrip (l : Str) : Str := rstrip (lstrip l)

/-- Python str.strip with a double-quote argument. -/
def stripQ (l : Str) : Str :=
  ((l.dropWhile (· = '"')).reverse.dropWhile (· = '"')).reverse

/-- Substring test: does pat occur contiguously inside l. -/
def containsSeq (pat : Str) : Str → Bool
  | [] => pat.isPrefixOf []
  | c :: rest => pat.isPrefixOf (c :: rest) || containsSeq pat rest

/-- Python s.split on a two-newline separator, leftmost and
non-overlapping, as used on the lockfile content. -/
def splitNN : Str → List Str
  | [] => [[]]
  | '\n' :: '\n' :: rest => [] :: splitNN rest
  | c :: rest =>
    match splitNN rest with
    | [] => [[c]]
    | r :: rs => (c :: r) :: rs

/-- Helper for splitlines: split at every LF, keeping a trailing empty
piece. -/
def splitNlAux : Str → List Str
  | [] => [[]]
  | '\n' :: rest => [] :: splitNlAux rest
  | c :: rest =>
    match splitNlAux rest with
    | [] => [[c]]
    | r :: rs => (c :: r) :: rs

/-- Python str.splitlines for LF-separated text: like splitting on LF
but an empty input gives no lines and a trailing LF adds no line. -/
def splitlines (l : Str) : List Str :=
  if l = [] then []
  else if l.getLast? = some '\n' then (splitNlAux l).dropLast
  else splitNlAux l

/-- Python s.split on a comma, every piece kept. -/
def splitComma : Str → List Str
  | [] => [[]]
  | ',' :: rest => [] :: splitComma rest
  | c :: rest =>
    match splitComma rest with
    | [] => [[c]]
    | r :: rs => (c :: r) :: rs

/-- Does the regex pattern of one-or-more whitespace then a hash match
at the head of the list, after skipping further whitespace. -/
def hashAfterWS : Str → Bool
  | [] => false
  | c :: rest => c = '#' || (isWS c && hashAfterWS rest)

/-- Does the regex pattern of one-or-more whitespace then a hash match
exactly at the head of the list. -/
def wsHash : Str → Bool
  | [] => false
  | c :: rest => isWS c && hashAfterWS rest

/-- Part of the line before the leftmost match of the inline-comment
regex (whitespace then hash); the whole line when there is no match.
This is re.split of that pattern, first piece. -/
def commentCut : Str → Str
  | [] => []
  | c :: rest => if wsHash (c :: rest) then [] else c :: commentCut rest

/-- Index of the last occurrence of the at sign, Python str.rfind
restricted to what the lockfile parser needs. -/
def lastAtIdx : Str → Option Nat
  | [] => none
  | c :: rest =>
    match lastAtIdx rest with
    | some i => some (i + 1)
    | none => if c = '@' then some 0 else none

/-! ### Plain-list parser (`parse_python_requirements`) -/

/-- Character class of the name group of the requirement regex:
letters, digits, underscore, dot, dash. -/
def nameChar (c : Char) : Bool :=
  c.isAlpha || c.isDigit || c = '_' || c = '.' || c = '-'

/-- Character class of the version group of the requirement regex:
anything except whitespace and semicolon. -/
def versChar (c : Char) : Bool := !isWS c && c != ';'

/-- The comparison operators of the requirement regex, in the order the
alternation lists them. -/
def opsList : List Str :=
  [['=', '='], ['~', '='], ['>', '='], ['<', '='], ['!', '='],
   ['=', '=', '='], ['>'], ['<']]

/-- Skip of the optional extras group of the requirement regex: when the
rest starts with an opening bracket and a closing bracket occurs before
any newline, the greedy dot-star consumes through the last such closing
bracket; otherwise the group matches nothing. -/
def extrasSkip (r : Str) : Str :=
  match r with
  | '[' :: rest =>
    let seg := rest.takeWhile (· ≠ '\n')
    if ']' ∈ seg then
      (seg.reverse.takeWhile (· ≠ ']')).reverse ++ rest.drop seg.length
    else '[' :: rest
  | _ => r

/-- One operator alternative of the regex: when the operator occurs at
the head, the version token after the whitespace run, failing when that
token is empty. -/
def tryOp (r : Str) (op : Str) : Option Str :=
  if op.isPrefixOf r then
    let v := ((r.drop op.length).dropWhile isWS).takeWhile versChar
    if v = [] then none else some v
  else none

/-- Try the operator alternation at the head of r; on success return the
version token matched after it. Mirrors regex backtracking: each
operator is tried in order at the position after the whitespace run, and
an operator only succeeds when a nonempty version token follows. -/
def tryOps (r : Str) : Option Str := opsList.findSome? (tryOp r)

/-- The requirement regex, anchored at the start of the line: optional
whitespace, a name, an optional extras bracket, an optional operator and
version. Returns the name and version groups; the version group is
empty when the operator group did not match. -/
def matchReq (l : Str) : Option (Str × Str) :=
  let w := l.dropWhile isWS
  let name := w.takeWhile nameChar
  if name = [] then none
  else
    let r1 := extrasSkip (w.dropWhile nameChar)
    let r2 := r1.dropWhile isWS
    match tryOps r2 with
    | some v => some (name, v)
    | none => some (name, [])

/-- Outcome of the plain-list parser on one line. -/
inductive LineRes where
  /-- The line contributes no record. -/
  | skip
  /-- The line contributes one record. -/
  | oneRec (r : Rec)
  /-- The line raises an IndexError. -/
  | err
  deriving DecidableEq, Repr

/-- Directive prefixes skipped by the first startswith check. -/
def dirPrefixes1 : List Str :=
  [['-', 'r'], "--requirement".data, "--find-links".data, "--extra-index-url".data]

/-- Directive prefixes skipped by the second startswith check. -/
def dirPrefixes2 : List Str :=
  ["--hash".data, "--only-binary".data, "--prefer-binary".data]

/-- Python startswith with a tuple of prefixes. -/
def startsAny (l : Str) (ps : List Str) : Bool := ps.any (·.isPrefixOf l)

/-- The two comment and marker strips applied to a surviving line: the
inline-comment split with its strip, then the environment-marker split
with its strip when a semicolon is present. -/
def processedLine (line : Str) : Str :=
  let l1 := pstrip (commentCut line)
  if ';' ∈ l1 then pstrip (l1.takeWhile (· ≠ ';')) else l1

/-- The direct-reference branch: split at the first at sign, strip both
parts, take the first whitespace token of the name part (an IndexError
when there is none), and mark the version with the at prefix. -/
def parseVCS (l2 : Str) : LineRes :=
  let nm := pstrip (l2.takeWhile (· ≠ '@'))
  let url := pstrip ((l2.dropWhile (· ≠ '@')).drop 1)
  if nm = [] then .err
  else .oneRec (nm.takeWhile (fun c => !isWS c), '@' :: ' ' :: url)

/-- The body of the loop after the skip checks: the direct-reference
branch when the line contains a space then an at sign, else the regex
match with the raw-line fallback. -/
def parseBody (l2 : Str) : LineRes :=
  if containsSeq [' ', '@'] l2 then parseVCS l2
  else
    match matchReq l2 with
    | none => .oneRec (l2, [])
    | some (n, v) => .oneRec (n, v)

/-- One iteration of the loop body of parse_python_requirements. -/
def parsePythonLine (raw : Str) : LineRes :=
  let line := pstrip raw
  if line = [] then .skip
  else if ['#'].isPrefixOf line then .skip
  else if startsAny line dirPrefixes1 then .skip
  else if startsAny line dirPrefixes2 then .skip
  else parseBody (processedLine line)

/-- parse_python_requirements over a list of lines.  The generator is
consumed by list(), so a raised IndexError discards every yielded record
and propagates. -/
def parse_python_requirements : List Str → Except PyErr (List Rec)
  | [] => .ok []
  | l :: ls =>
    match parsePythonLine l with
    | .err => .error .index
    | .skip => parse_python_requirements ls
    | .oneRec r => (parse_python_requirements ls).map (r :: ·)

/-! ### Generic fallback parser -/

/-- The fallback branch of parse_requirements: one record per line that
is non-blank and whose left-stripped form does not start with a hash,
with the stripped line as package name and an empty version. -/
def genericFallback (lines : List Str) : List Rec :=
  lines.filterMap fun l =>
    if pstrip l ≠ [] ∧ ['#'].isPrefixOf (lstrip l) = false then some (pstrip l, [])
    else none

/-! ### Loaded JSON documents -/

/-- Values produced by json.load. Objects keep their entries in document
order, as Python dicts preserve insertion order. -/
inductive Json where
  | null
  | bool (b : Bool)
  | num (n : Int)
  | str (s : Str)
  | arr (elems : List Json)
  | obj (entries : List (Str × Json))

instance : Inhabited Json := ⟨Json.null⟩

/-- Lookup of a key in a loaded object, first entry wins (loaded objects
have unique keys). -/
def jsonLookup (k : Str) : List (Str × Json) → Option Json
  | [] => none
  | (k2, v) :: rest => if k2 = k then some v else jsonLookup k rest

/-- Python dict.get with a default. -/
def pyGet (kvs : List (Str × Json)) (k : Str) (d : Json) : Json :=
  (jsonLookup k kvs).getD d

mutual
/-- Python repr of a loaded JSON value. String quoting is modelled with
a plain single quote on both sides; the claims never depend on repr
output, only the str branch of pyToStr is ever inspected. -/
def pyRepr : Json → Str
  | .null => "None".data
  | .bool true => "True".data
  | .bool false => "False".data
  | .num n => (toString n).data
  | .str s => Char.ofNat 39 :: s ++ [Char.ofNat 39]
  | .arr elems => '[' :: pyReprList elems ++ [']']
  | .obj entries => Char.ofNat 123 :: pyReprEntries entries ++ [Char.ofNat 125]

/-- Comma-separated reprs of list elements. -/
def pyReprList : List Json → Str
  | [] => []
  | [j] => pyRepr j
  | j :: rest => pyRepr j ++ ',' :: ' ' :: pyReprList rest

/-- Comma-separated regrouped reprs of dict entries. -/
def pyReprEntries : List (Str × Json) → Str
  | [] => []
  | [(k, v)] => pyRepr (.str k) ++ ':' :: ' ' :: pyRepr v
  | (k, v) :: rest =>
    pyRepr (.str k) ++ ':' :: ' ' :: pyRepr v ++ ',' :: ' ' :: pyReprEntries rest
end

/-- Python str() of a loaded JSON value. -/
def pyToStr : Json → Str
  | .str s => s
  | j => pyRepr j

/-- The version field of a lock entry: str(info.get("version", "")). -/
def lockVersion (kvs : List (Str × Json)) : Str :=
  match jsonLookup "version".data kvs with
  | some j => pyToStr j
  | none => []

/-! ### Nested-tree parser (`walk_npm_lock_dependencies`,
`parse_package_lock`) -/

mutual
/-- walk_npm_lock_dependencies: for each entry, when the value is a
dict, first recurse into its nested dependencies mapping (when that is
a dict), then emit the entry itself. -/
def walk_npm_lock_dependencies : List (Str × Json) → List Rec
  | [] => []
  | (name, info) :: rest => walkEntry name info ++ walk_npm_lock_dependencies rest

/-- Records contributed by one entry of the mapping: the nested records
followed by the entry record, or a bare record with empty version when
the value is not a dict. -/
def walkEntry (name : Str) : Json → List Rec
  | .obj kvs => walkNested kvs ++ [(name, lockVersion kvs)]
  | _ => [(name, [])]

/-- info.get("dependencies") followed by the isinstance dict test and
the recursive walk; fused into one scan of the entry list so that the
recursion stays structural. -/
def walkNested : List (Str × Json) → List Rec
  | [] => []
  | (k, v) :: rest =>
    if k = "dependencies".data then
      match v with
      | .obj nested => walk_npm_lock_dependencies nested
      | _ => []
    else walkNested rest
end

/-- Records of a lock document body: take the top-level dependencies
mapping (default empty), walk it when it is a dict. -/
def lockRecords (kvs : List (Str × Json)) : List Rec :=
  match pyGet kvs "dependencies".data (.obj []) with
  | .obj deps => walk_npm_lock_dependencies deps
  | _ => []

/-- parse_package_lock on a decoded document. A non-object document
raises AttributeError from data.get. -/
def parse_package_lock (data : Json) : Except PyErr (List Rec) :=
  match data with
  | .obj kvs => .ok (lockRecords kvs)
  | _ => .error .attr

/-! ### Manifest-object parser (`parse_package_json`) -/

/-- The five dependency group keys, in the order the source lists them. -/
def sectionsList : List Str :=
  ["dependencies".data, "devDependencies".data, "peerDependencies".data,
   "optionalDependencies".data, "bundledDependencies".data]

/-- One entry of a dependency group: emitted when its value is a plain
string, skipped otherwise. -/
def entryRecord (kv : Str × Json) : Option Rec :=
  match kv.2 with
  | .str v => some (kv.1, v)
  | _ => none

/-- Records of one dependency group: take the group (default empty
dict); when it is a dict, emit one record per string-valued entry. -/
def sectionRecords (kvs : List (Str × Json)) (s : Str) : List Rec :=
  match pyGet kvs s (.obj []) with
  | .obj deps => deps.filterMap entryRecord
  | _ => []

/-- parse_package_json on a decoded document: the five sections in
order, each contributing its group records. A non-object document
raises AttributeError from data.get. -/
def parse_package_json (data : Json) : Except PyErr (List Rec) :=
  match data with
  | .obj kvs => .ok (sectionsList.flatMap (sectionRecords kvs))
  | _ => .error .attr

/-! ### Block-record parser (`parse_yarn_lock`) -/

/-- Non-blank lines of one block, each right-stripped, in order. -/
def blockLines (block : Str) : List Str :=
  ((splitlines block).filter fun l => pstrip l != []).map rstrip

/-- Scan of the block body for the first line whose stripped form starts
with the literal version-space prefix; the resolved version is the rest
after the first space, stripped of whitespace then of quotes. Empty when
no such line exists. -/
def findVersion : List Str → Str
  | [] => []
  | l :: ls =>
    let s := pstrip l
    if "version ".data.isPrefixOf s then stripQ (pstrip (s.drop 8))
    else findVersion ls

/-- Name of one specifier: rfind of the at sign (minus one when absent);
when that index is at most zero the whole specifier is the name, else
the slice before it. -/
def specName (spec : Str) : Str :=
  let at_index : Int := match lastAtIdx spec with | none => -1 | some i => (i : Int)
  if at_index ≤ 0 then spec else spec.take at_index.toNat

/-- Records contributed by the non-blank lines of one block: requires a
header ending in a colon; splits the header on commas into specifiers,
strips whitespace and quotes from each, skips empty specifiers, and
emits one record per specifier sharing the block version. -/
def parseBlockLines : List Str → List Rec
  | [] => []
  | header :: restL =>
    if header.getLast? = some ':' then
      let specs := (splitComma header.dropLast).map fun s => stripQ (pstrip s)
      let version := findVersion restL
      specs.foldr (fun spec acc => if spec = [] then acc else (specName spec, version) :: acc) []
    else []

/-- Records of one blank-line-delimited block. -/
def parseBlock (block : Str) : List Rec := parseBlockLines (blockLines block)

/-- parse_yarn_lock: split the content on blank-line boundaries and
concatenate the records of every block. -/
def parse_yarn_lock (content : Str) : List Rec :=
  (splitNN content).foldr (fun b acc => parseBlock b ++ acc) []

/-! ### Dispatcher (`parse_requirements`) -/

/-- Python str.lower. -/
def lowerStr (l : Str) : Str := l.map Char.toLower

/-- parse_requirements: dispatch on ecosystem and exact lowercased file
name.  The raw text is passed for the line parsers; the json.load
outcome is passed for the two structured node parsers, its error case
standing for a JSONDecodeError with the exception text.  A decode error
is wrapped into a RuntimeError naming the file; an AttributeError from
inside a structured parser is not caught and propagates bare. -/
def parse_requirements (fname eco : Str) (raw : Str)
    (decoded : Except Str Json) : Except PyErr (List Rec) :=
  if eco = "python".data then
    parse_python_requirements (splitlines raw)
  else if eco = "nodejs".data ∧ lowerStr fname = "package.json".data then
    match decoded with
    | .error em => .error (.runtime ("Failed to parse ".data ++ fname ++ ':' :: ' ' :: em))
    | .ok d => parse_package_json d
  else if eco = "nodejs".data ∧ lowerStr fname = "package-lock.json".data then
    match decoded with
    | .error em => .error (.runtime ("Failed to parse ".data ++ fname ++ ':' :: ' ' :: em))
    | .ok d => parse_package_lock d
  else if eco = "nodejs".data ∧ lowerStr fname = "yarn.lock".data then
    .ok (parse_yarn_lock raw)
  else
    .ok (genericFallback (splitlines raw))

/-! ### Classifier (`infer_ecosystem`) and locator match
(`is_requirement_file`) -/

/-- Exact names mapped to the python ecosystem. -/
def PYTHON_HINTS : List Str :=
  ["requirements.txt".data, "requirements-dev.txt".data, "requirements.in".data,
   "constraints.txt".data, "environment.yml".data, "environment.yaml".data,
   "setup.py".data, "setup.cfg".data, "pyproject.toml".data, "poetry.lock".data,
   "pdm.lock".data, "pdm.toml".data, "pipfile".data, "pipfile.lock".data]

/-- Exact names mapped to the nodejs ecosystem. -/
def NODE_HINTS : List Str :=
  ["package.json".data, "package-lock.json".data, "yarn.lock".data,
   "pnpm-lock.yaml".data, "pnpm-lock.yml".data, "bun.lockb".data]

/-- infer_ecosystem on the lowercased file name. -/
def inferLower (l : Str) : Str :=
  if PYTHON_HINTS.contains l || ".txt".data.isSuffixOf l then "python".data
  else if NODE_HINTS.contains l then "nodejs".data
  else if ["gemfile".data, "gemfile.lock".data].contains l then "ruby".data
  else if ".csproj".data.isSuffixOf l || ".fsproj".data.isSuffixOf l
          || ".vbproj".data.isSuffixOf l
          || ["packages.config".data].contains l then "dotnet".data
  else if ["pom.xml".data, "build.gradle".data, "build.gradle.kts".data].contains l then
    "java".data
  else if ["cargo.toml".data, "cargo.lock".data].contains l then "rust".data
  else if ["go.mod".data, "go.sum".data].contains l then "go".data
  else if ["composer.json".data, "composer.lock".data].contains l then "php".data
  else "unknown".data

/-- infer_ecosystem: classify a file name by its lowercased form. -/
def infer_ecosystem (name : Str) : Str := inferLower (lowerStr name)

/-- The exact-filename table of find_requirement_files. -/
def EXACT_FILENAMES : List Str :=
  ["requirements.txt".data, "requirements-dev.txt".data, "requirements.in".data,
   "constraints.txt".data, "environment.yml".data, "environment.yaml".data,
   "pyproject.toml".data, "poetry.lock".data, "pdm.lock".data, "pdm.toml".data,
   "pipfile".data, "pipfile.lock".data, "setup.py".data, "setup.cfg".data,
   "package.json".data, "package-lock.json".data, "yarn.lock".data,
   "pnpm-lock.yaml".data, "pnpm-lock.yml".data, "pom.xml".data,
   "build.gradle".data, "build.gradle.kts".data, "gradle.lockfile".data,
   "gemfile".data, "gemfile.lock".data, "composer.json".data,
   "composer.lock".data, "cargo.toml".data, "cargo.lock".data, "go.mod".data,
   "go.sum".data, "packages.config".data, "nuget.config".data,
   "docker-compose.yml".data, "docker-compose.yaml".data, "conda.yml".data,
   "conda.yaml".data]

/-- fnmatch against the FILENAME_PATTERNS set on a lowercase name. A
star matches any run of characters, so a pure-suffix pattern is a
suffix test, and the requirements pattern is a prefix test plus a
suffix test plus the length bound that keeps the two parts disjoint
(thirteen prefix characters plus four suffix characters). -/
def matchesPattern (l : Str) : Bool :=
  ".csproj".data.isSuffixOf l || ".fsproj".data.isSuffixOf l
    || ".vbproj".data.isSuffixOf l
    || ("requirements-".data.isPrefixOf l && ".txt".data.isSuffixOf l && l.length >= 17)
    || ".deps.json".data.isSuffixOf l

/-- is_requirement_file: exact table membership on the lowercased name,
else a pattern match. -/
def is_requirement_file (name : Str) : Bool :=
  EXACT_FILENAMES.contains (lowerStr name) || matchesPattern (lowerStr name)

/-! ### Specification-side definitions

These definitions follow the wording of the specification (and of the
claims under check), not the source; each theorem below compares one of
them with the corresponding source-translated definition. -/

/-- Size of a value found by lookup, bounded by the size of the list. -/
theorem jsonLookup_sizeOf {k : Str} : ∀ {kvs : List (Str × Json)} {v : Json},
    jsonLookup k kvs = some v → sizeOf v < sizeOf kvs := by
  intro kvs
  induction kvs with
  | nil => intro v h; simp [jsonLookup] at h
  | cons hd tl ih =>
    intro v h
    obtain ⟨k2, v2⟩ := hd
    simp only [jsonLookup] at h
    split at h
    · cases h
      simp only [List.cons.sizeOf_spec, Prod.mk.sizeOf_spec]
      omega
    · have := ih h
      simp only [List.cons.sizeOf_spec, Prod.mk.sizeOf_spec]
      omega

/-- Every Json value has positive size. -/
theorem json_sizeOf_pos (j : Json) : 0 < sizeOf j := by
  cases j <;> simp

/-- The nested dependencies mapping of one entry value, per the spec:
present only when the value is a mapping carrying a dependencies key
whose value is again a mapping. -/
def nestedMapping (info : Json) : List (Str × Json) :=
  match info with
  | .obj kvs =>
    match jsonLookup "dependencies".data kvs with
    | some (.obj nested) => nested
    | _ => []
  | _ => []

/-- The resolved version of one entry value, per the spec: the version
field of the mapping, empty otherwise. -/
def resolvedVersionOf (info : Json) : Str :=
  match info with
  | .obj kvs => lockVersion kvs
  | _ => []

/-- Size bound for the nested mapping, used for termination. -/
theorem nestedMapping_sizeOf (info : Json) : sizeOf (nestedMapping info) ≤ sizeOf info := by
  have hnil : sizeOf ([] : List (Str × Json)) = 1 := rfl
  unfold nestedMapping
  split
  · rename_i kvs
    split
    · rename_i nested hl
      have h1 := jsonLookup_sizeOf hl
      have h2 : sizeOf (Json.obj nested) = 1 + sizeOf nested := by simp
      have h3 : sizeOf (Json.obj kvs) = 1 + sizeOf kvs := by simp
      omega
    · have h3 : sizeOf (Json.obj kvs) = 1 + sizeOf kvs := by simp
      omega
  · have := json_sizeOf_pos info
    omega

/-- Flattening of a nested resolved tree following the amended claim:
for each entry, first the records of its nested children, then the
record of the entry itself, entries in declared order, any depth. -/
def specNestedFlatten : List (Str × Json) → List Rec
  | [] => []
  | (name, info) :: rest =>
    specNestedFlatten (nestedMapping info) ++ [(name, resolvedVersionOf info)]
      ++ specNestedFlatten rest
termination_by l => sizeOf l
decreasing_by
  · rename Json => info
    have := nestedMapping_sizeOf info
    simp only [List.cons.sizeOf_spec, Prod.mk.sizeOf_spec]
    omega
  · simp only [List.cons.sizeOf_spec, Prod.mk.sizeOf_spec]
    omega

/-- The fused nested-dependencies scan agrees with lookup into the
nested mapping followed by the walk. -/
theorem walkNested_eq (kvs : List (Str × Json)) :
    walkNested kvs = walk_npm_lock_dependencies (nestedMapping (Json.obj kvs)) := by
  induction kvs with
  | nil => rfl
  | cons hd tl ih =>
    rw [walkNested.eq_def]
    obtain ⟨k, v⟩ := hd
    rcases eq_or_ne k "dependencies".data with hk | hk
    · subst hk
      cases v <;>
        simp [walk_npm_lock_dependencies.eq_1, nestedMapping, jsonLookup]
    · simp only [nestedMapping, jsonLookup, if_neg hk]
      rw [ih]
      rfl

/-- The source walk computes exactly the specification-side child-first
flattening. -/
theorem walk_eq_specNestedFlatten :
    ∀ deps, walk_npm_lock_dependencies deps = specNestedFlatten deps := by
  have main : ∀ n (deps : List (Str × Json)), sizeOf deps ≤ n →
      walk_npm_lock_dependencies deps = specNestedFlatten deps := by
    intro n
    induction n with
    | zero =>
      intro deps h
      have hpos : 0 < sizeOf deps := by
        cases deps <;> simp
      omega
    | succ n ih =>
      intro deps h
      rw [walk_npm_lock_dependencies.eq_def, specNestedFlatten.eq_def]
      cases deps with
      | nil => rfl
      | cons hd rest =>
        obtain ⟨name, info⟩ := hd
        show walkEntry name info ++ walk_npm_lock_dependencies rest =
          specNestedFlatten (nestedMapping info) ++ [(name, resolvedVersionOf info)]
            ++ specNestedFlatten rest
        simp only [List.cons.sizeOf_spec, Prod.mk.sizeOf_spec] at h
        have hrest : walk_npm_lock_dependencies rest = specNestedFlatten rest := by
          apply ih
          have := json_sizeOf_pos info
          omega
        rw [walkEntry.eq_def, hrest]
        cases info with
        | obj kvs =>
          have hnest : walk_npm_lock_dependencies (nestedMapping (Json.obj kvs)) =
              specNestedFlatten (nestedMapping (Json.obj kvs)) := by
            apply ih
            have := nestedMapping_sizeOf (Json.obj kvs)
            have h2 : sizeOf (Json.obj kvs) = 1 + sizeOf kvs := by simp
            omega
          rw [show (match Json.obj kvs with
              | Json.obj kvs => walkNested kvs ++ [(name, lockVersion kvs)]
              | _ => [(name, [])]) = walkNested kvs ++ [(name, lockVersion kvs)] from rfl]
          rw [walkNested_eq, hnest]
          simp only [resolvedVersionOf, List.append_assoc]
        | null => simp [nestedMapping, resolvedVersionOf, specNestedFlatten]
        | bool b => simp [nestedMapping, resolvedVersionOf, specNestedFlatten]
        | num m => simp [nestedMapping, resolvedVersionOf, specNestedFlatten]
        | str s => simp [nestedMapping, resolvedVersionOf, specNestedFlatten]
        | arr elems => simp [nestedMapping, resolvedVersionOf, specNestedFlatten]
  intro deps
  exact main (sizeOf deps) deps (Nat.le_refl _)

/-! ### Claim C1: emission order of the nested-tree parser -/

/-- C1 counterexample: on the specification's own example the nested
tree parser emits the child record before the parent record, so the
claimed parent-before-children order (with the claimed output) is
false. -/
theorem claim_C1_counterexample :
    walk_npm_lock_dependencies
        [("a".data, .obj [("version".data, .str "1.0.0".data),
          ("dependencies".data, .obj [("b".data, .obj [("version".data, .str "2.0.0".data)])])])]
      = [("b".data, "2.0.0".data), ("a".data, "1.0.0".data)] ∧
    walk_npm_lock_dependencies
        [("a".data, .obj [("version".data, .str "1.0.0".data),
          ("dependencies".data, .obj [("b".data, .obj [("version".data, .str "2.0.0".data)])])])]
      ≠ [("a".data, "1.0.0".data), ("b".data, "2.0.0".data)] := by
  constructor
  · decide
  · decide

/-- C1 (amended): the nested-tree parser flattens every document into
one linear sequence in which each parent entry's record is emitted
after the records of its nested children, with children in the
mapping's declared order; the example document therefore yields the
child record before the parent record. -/
theorem claim_C1 :
    (∀ deps, walk_npm_lock_dependencies deps = specNestedFlatten deps) ∧
    walk_npm_lock_dependencies
        [("a".data, .obj [("version".data, .str "1.0.0".data),
          ("dependencies".data, .obj [("b".data, .obj [("version".data, .str "2.0.0".data)])])])]
      = [("b".data, "2.0.0".data), ("a".data, "1.0.0".data)] :=
  ⟨walk_eq_specNestedFlatten, by decide⟩

/-! ### Claim C8: manifest-object parser groups -/

/-- Pointwise equal functions give equal flat maps. -/
theorem flatMapCongr {α β : Type _} {f g : α → List β} (h : ∀ a, f a = g a) :
    ∀ l : List α, l.flatMap f = l.flatMap g := by
  intro l
  induction l with
  | nil => rfl
  | cons a t ih =>
    show f a ++ t.flatMap f = g a ++ t.flatMap g
    rw [h a, ih]

/-- Records of one dependency group following the claim's words: when
the group is present and is a mapping, one record per string-valued
entry in declared order; absent groups and non-mapping groups give
nothing. -/
def specSectionRecords (kvs : List (Str × Json)) (s : Str) : List Rec :=
  match jsonLookup s kvs with
  | some (.obj deps) => deps.filterMap entryRecord
  | _ => []

/-- Manifest records following the claim's words: the five groups in
the fixed order direct, dev, peer, optional, bundled. -/
def specManifestRecords (kvs : List (Str × Json)) : List Rec :=
  sectionsList.flatMap (specSectionRecords kvs)

/-- The source group scan agrees with the claim-side group scan. -/
theorem sectionRecords_eq (kvs : List (Str × Json)) (s : Str) :
    sectionRecords kvs s = specSectionRecords kvs s := by
  unfold sectionRecords specSectionRecords pyGet
  cases hl : jsonLookup s kvs with
  | none => rfl
  | some v => cases v <;> rfl

/-- C8: the manifest-object parser iterates exactly the five dependency
groups in the fixed order, emitting one record per string-valued entry
in declared entry order and skipping non-string values; on the example
document the direct group precedes the dev group. -/
theorem claim_C8 :
    (∀ kvs, parse_package_json (Json.obj kvs) = .ok (specManifestRecords kvs)) ∧
    parse_package_json (Json.obj
      [("dependencies".data, .obj [("left-pad".data, .str "^1.3.0".data)]),
       ("devDependencies".data, .obj [("jest".data, .str "29.0.0".data)])]) =
      .ok [("left-pad".data, "^1.3.0".data), ("jest".data, "29.0.0".data)] := by
  constructor
  · intro kvs
    show Except.ok (sectionsList.flatMap (sectionRecords kvs)) = _
    exact congrArg Except.ok (flatMapCongr (sectionRecords_eq kvs) sectionsList)
  · rfl

/-! ### Claim C10: nested-tree parser on documents without a
dependencies mapping -/

/-- C10 counterexample: a syntactically well-formed document that is
not an object (an empty array, which has no dependencies key) makes the
nested-tree parser raise an attribute error rather than succeed with
the empty sequence. -/
theorem claim_C10_counterexample :
    parse_package_lock (Json.arr []) = .error .attr := rfl

/-- C10 (amended): for every well-formed object document whose
top-level dependencies key is absent or maps to a non-mapping value,
the nested-tree parser returns the empty record sequence successfully;
well-formed non-object documents instead raise an attribute error. -/
theorem claim_C10 (kvs : List (Str × Json))
    (h : ∀ deps, jsonLookup "dependencies".data kvs ≠ some (Json.obj deps)) :
    parse_package_lock (Json.obj kvs) = .ok [] := by
  show Except.ok (lockRecords kvs) = _
  unfold lockRecords pyGet
  cases hl : jsonLookup "dependencies".data kvs with
  | none => rfl
  | some v =>
    cases v with
    | obj deps => exact absurd hl (h deps)
    | null => rfl
    | bool b => rfl
    | num m => rfl
    | str s => rfl
    | arr elems => rfl

/-- C10 witness: a concrete document with a string-valued dependencies
key parses to the empty sequence. -/
theorem claim_C10_witness :
    parse_package_lock (Json.obj [("dependencies".data, Json.str "1".data)]) = .ok [] :=
  claim_C10 _ (by
    intro deps hd
    rw [show jsonLookup "dependencies".data [("dependencies".data, Json.str "1".data)] =
      some (Json.str "1".data) from rfl] at hd
    simp at hd)

/-! ### Claim C9: classifier precedence and txt heuristic -/

/-- C9: the classifier sends Cargo.lock to rust by exact
case-insensitive match, foo.csproj to dotnet by suffix pattern, and
every file name whose lowercase form ends in .txt to python. -/
theorem claim_C9 :
    infer_ecosystem "Cargo.lock".data = "rust".data ∧
    infer_ecosystem "foo.csproj".data = "dotnet".data ∧
    ∀ name : Str, ".txt".data.isSuffixOf (lowerStr name) = true →
      infer_ecosystem name = "python".data := by
  refine ⟨by decide, by decide, fun name h => ?_⟩
  unfold infer_ecosystem inferLower
  rw [if_pos]
  rw [h]
  simp

/-- C9 witness: a concrete txt file name classifies as python. -/
theorem claim_C9_witness :
    ".txt".data.isSuffixOf (lowerStr "NOTES.txt".data) = true ∧
      infer_ecosystem "NOTES.txt".data = "python".data :=
  ⟨by decide, claim_C9.2.2 "NOTES.txt".data (by decide)⟩

/-! ### Claim C4: locator match versus classifier -/

/-- Membership and the boolean contains test agree on name lists. -/
theorem containsMem {x : Str} : ∀ {L : List Str}, L.contains x = true ↔ x ∈ L := by
  intro L
  induction L with
  | nil => simp
  | cons a t ih => simp [ih]

/-- C4 counterexample: a txt file name that the classifier recognizes
as python is not matched by the locator, so the claimed equivalence is
false. -/
theorem claim_C4_counterexample :
    is_requirement_file "notes.txt".data = false ∧
    infer_ecosystem "notes.txt".data = "python".data ∧
    ("python".data : Str) ≠ "unknown".data := by
  refine ⟨by decide, by decide, by decide⟩

/-- Every exact locator name is either a txt name, one of the six names
the classifier does not know, or classified. -/
theorem exactClassified :
    ∀ x ∈ EXACT_FILENAMES, ".txt".data.isSuffixOf x = true ∨
      x ∈ ["gradle.lockfile".data, "nuget.config".data, "docker-compose.yml".data,
        "docker-compose.yaml".data, "conda.yml".data, "conda.yaml".data] ∨
      inferLower x ≠ "unknown".data := by decide

/-- Core of the amended C4, stated over the lowercased name. -/
theorem reqfile_iff_classified (l : Str)
    (h1 : ".txt".data.isSuffixOf l = false)
    (h2 : l ≠ "bun.lockb".data)
    (h3 : ".deps.json".data.isSuffixOf l = false)
    (h4 : l ∉ ["gradle.lockfile".data, "nuget.config".data, "docker-compose.yml".data,
        "docker-compose.yaml".data, "conda.yml".data, "conda.yaml".data]) :
    (EXACT_FILENAMES.contains l || matchesPattern l) = true ↔
      inferLower l ≠ "unknown".data := by
  constructor
  · intro hreq
    simp only [Bool.or_eq_true] at hreq
    rcases hreq with hc | hp
    · rcases exactClassified l (containsMem.mp hc) with h | h | h
      · rw [h] at h1
        exact absurd h1 (by decide)
      · exact absurd h h4
      · exact h
    · unfold matchesPattern at hp
      rw [h1, h3] at hp
      simp only [Bool.and_false, Bool.false_and, Bool.or_false] at hp
      intro hu
      unfold inferLower at hu
      split_ifs at hu with g1 g2 g3 g4 g5 g6 g7 g8
      all_goals first
        | (exact absurd hu (by decide))
        | (refine g4 ?_
           simp only [Bool.or_eq_true] at hp ⊢
           tauto)
  · intro hinf
    unfold inferLower at hinf
    split_ifs at hinf with g1 g2 g3 g4 g5 g6 g7 g8
    · rw [h1, Bool.or_false] at g1
      have hm := containsMem.mp g1
      simp only [Bool.or_eq_true]
      refine Or.inl (containsMem.mpr ?_)
      fin_cases hm <;> decide
    · have hm := containsMem.mp g2
      simp only [Bool.or_eq_true]
      refine Or.inl (containsMem.mpr ?_)
      fin_cases hm <;> first | decide | (exact absurd rfl h2)
    · have hm := containsMem.mp g3
      simp only [Bool.or_eq_true]
      refine Or.inl (containsMem.mpr ?_)
      fin_cases hm <;> decide
    · simp only [Bool.or_eq_true] at g4
      rcases g4 with ((hs | hs) | hs) | hpc
      · simp only [Bool.or_eq_true]
        refine Or.inr ?_
        unfold matchesPattern
        simp [hs]
      · simp only [Bool.or_eq_true]
        refine Or.inr ?_
        unfold matchesPattern
        simp [hs]
      · simp only [Bool.or_eq_true]
        refine Or.inr ?_
        unfold matchesPattern
        simp [hs]
      · have hm := containsMem.mp hpc
        simp only [Bool.or_eq_true]
        refine Or.inl (containsMem.mpr ?_)
        fin_cases hm <;> decide
    · have hm := containsMem.mp g5
      simp only [Bool.or_eq_true]
      refine Or.inl (containsMem.mpr ?_)
      fin_cases hm <;> decide
    · have hm := containsMem.mp g6
      simp only [Bool.or_eq_true]
      refine Or.inl (containsMem.mpr ?_)
      fin_cases hm <;> decide
    · have hm := containsMem.mp g7
      simp only [Bool.or_eq_true]
      refine Or.inl (containsMem.mpr ?_)
      fin_cases hm <;> decide
    · have hm := containsMem.mp g8
      simp only [Bool.or_eq_true]
      refine Or.inl (containsMem.mpr ?_)
      fin_cases hm <;> decide
    · exact absurd rfl hinf

/-- C4 (amended): outside the four known divergence families (txt
names, the bun lockfile, deps.json names, and the six locator-only
exact names) the locator's file-match decision agrees with the
classifier: is_requirement_file is true exactly when infer_ecosystem is
not unknown. -/
theorem claim_C4 (name : Str)
    (h1 : ".txt".data.isSuffixOf (lowerStr name) = false)
    (h2 : lowerStr name ≠ "bun.lockb".data)
    (h3 : ".deps.json".data.isSuffixOf (lowerStr name) = false)
    (h4 : lowerStr name ∉ ["gradle.lockfile".data, "nuget.config".data,
        "docker-compose.yml".data, "docker-compose.yaml".data,
        "conda.yml".data, "conda.yaml".data]) :
    is_requirement_file name = true ↔ infer_ecosystem name ≠ "unknown".data :=
  reqfile_iff_classified (lowerStr name) h1 h2 h3 h4

/-- C4 witness: on a concrete name outside the divergence families the
two decisions agree. -/
theorem claim_C4_witness :
    ".txt".data.isSuffixOf (lowerStr "Cargo.lock".data) = false ∧
    lowerStr "Cargo.lock".data ≠ "bun.lockb".data ∧
    ".deps.json".data.isSuffixOf (lowerStr "Cargo.lock".data) = false ∧
    lowerStr "Cargo.lock".data ∉ ["gradle.lockfile".data, "nuget.config".data,
        "docker-compose.yml".data, "docker-compose.yaml".data,
        "conda.yml".data, "conda.yaml".data] ∧
    (is_requirement_file "Cargo.lock".data = true ↔
      infer_ecosystem "Cargo.lock".data ≠ "unknown".data) :=
  ⟨by decide, by decide, by decide, by decide,
    claim_C4 "Cargo.lock".data (by decide) (by decide) (by decide) (by decide)⟩

/-! ### Claim C7: block-record name and version rules -/

/-- A failed rfind means the character does not occur. -/
theorem lastAtIdx_none : ∀ {spec : Str}, lastAtIdx spec = none → '@' ∉ spec := by
  intro spec
  induction spec with
  | nil => intro _ hm; cases hm
  | cons c rest ih =>
    intro h
    unfold lastAtIdx at h
    cases hr : lastAtIdx rest with
    | some j => rw [hr] at h; cases h
    | none =>
      rw [hr] at h
      by_cases hc : c = '@'
      · rw [if_pos hc] at h; cases h
      · rw [if_neg hc] at h
        intro hm
        rcases List.mem_cons.mp hm with he | hm
        · exact hc he.symm
        · exact ih hr hm

/-- Decomposition at the last at sign: a successful rfind yields the
text before, the sign, and an at-free tail of the stated length. -/
theorem lastAtIdx_some : ∀ {spec : Str} {i : Nat}, lastAtIdx spec = some i →
    ∃ a b, spec = a ++ '@' :: b ∧ a.length = i ∧ '@' ∉ b := by
  intro spec
  induction spec with
  | nil => intro i h; simp [lastAtIdx] at h
  | cons c rest ih =>
    intro i h
    unfold lastAtIdx at h
    cases hr : lastAtIdx rest with
    | some j =>
      rw [hr] at h
      cases h
      obtain ⟨a, b, hab, hlen, hfree⟩ := ih hr
      exact ⟨c :: a, b, by rw [hab]; rfl, by simp [hlen], hfree⟩
    | none =>
      rw [hr] at h
      by_cases hc : c = '@'
      · rw [if_pos hc] at h
        cases h
        exact ⟨[], rest, by rw [hc]; rfl, rfl, lastAtIdx_none hr⟩
      · rw [if_neg hc] at h
        cases h

/-- Name of one specifier following the claim's words: the text before
the last at sign, except that a specifier whose only or last at sign
sits at position zero, or which has none at all, is its own name. -/
def claimSpecName (spec : Str) : Str :=
  match lastAtIdx spec with
  | none => spec
  | some 0 => spec
  | some (i + 1) => spec.take (i + 1)

/-- Version of one block body following the claim's words: from the
first line whose trimmed form begins with the version keyword, the text
after the keyword with whitespace and quotes stripped; empty without
such a line. -/
def claimBlockVersion (body : List Str) : Str :=
  match body.find? (fun l => "version ".data.isPrefixOf (pstrip l)) with
  | some l => stripQ (pstrip ((pstrip l).drop 8))
  | none => []

/-- The source specifier-name computation agrees with the claim rule. -/
theorem specName_eq_claim (spec : Str) : specName spec = claimSpecName spec := by
  unfold specName claimSpecName
  cases h : lastAtIdx spec with
  | none => simp
  | some i =>
    cases i with
    | zero => simp
    | succ j =>
      have hpos : ¬((((j + 1 : Nat) : Int)) ≤ 0) := by
        omega
      simp only [hpos, if_false]
      norm_num

/-- The source version scan agrees with the claim rule. -/
theorem findVersion_eq_claim (body : List Str) :
    findVersion body = claimBlockVersion body := by
  induction body with
  | nil => rfl
  | cons l ls ih =>
    by_cases hp : "version ".data.isPrefixOf (pstrip l) = true
    · unfold findVersion claimBlockVersion
      simp [List.find?_cons, hp]
    · simp only [Bool.not_eq_true] at hp
      unfold findVersion
      rw [if_neg (by simp [hp]), ih]
      have hf : List.find? (fun l => "version ".data.isPrefixOf (pstrip l)) (l :: ls) =
          List.find? (fun l => "version ".data.isPrefixOf (pstrip l)) ls := by
        simp [List.find?_cons, hp]
      unfold claimBlockVersion
      rw [hf]

/-- Block records following the claim's words: one record per nonempty
specifier of the header, each named by the claim rule and all sharing
the single claim-rule version of the block body. -/
def specBlockLines : List Str → List Rec
  | [] => []
  | header :: body =>
    if header.getLast? = some ':' then
      (((splitComma header.dropLast).map fun s => stripQ (pstrip s)).filter
          fun s => s != []).map
        fun s => (claimSpecName s, claimBlockVersion body)
    else []

/-- Block records of one block following the claim's words. -/
def specBlockRecords (block : Str) : List Rec := specBlockLines (blockLines block)

/-- The record-emitting fold of the source agrees with filtering out
empty specifiers and mapping the record constructor. -/
theorem foldrFilterMap (f : Str → Rec) : ∀ specs : List Str,
    specs.foldr (fun spec acc => if spec = [] then acc else f spec :: acc) [] =
      ((specs.filter fun s => s != []).map f) := by
  intro specs
  induction specs with
  | nil => rfl
  | cons s t ih =>
    by_cases hs : s = []
    · simp [hs, ih]
    · simp [List.filter_cons, hs, ih]

/-- C7: in every block the emitted name of each quoted specifier is the
text before the last at sign (the whole specifier when that sign is at
position zero or absent), every specifier of the block shares the
single resolved version taken from the first version line of the block
(quotes stripped, empty when absent), and the example block yields one
record. -/
theorem claim_C7 :
    (∀ spec, specName spec = claimSpecName spec) ∧
    (∀ body, findVersion body = claimBlockVersion body) ∧
    (∀ block, parseBlock block = specBlockRecords block) ∧
    parse_yarn_lock "\"left-pad@^1.3.0\":\n  version \"1.3.0\"".data =
      [("left-pad".data, "1.3.0".data)] := by
  refine ⟨specName_eq_claim, findVersion_eq_claim, fun block => ?_, by decide⟩
  unfold parseBlock specBlockRecords
  cases blockLines block with
  | nil => rfl
  | cons header body =>
    rw [parseBlockLines, specBlockLines]
    by_cases hc : header.getLast? = some ':'
    · rw [if_pos hc, if_pos hc]
      show List.foldr _ [] _ = _
      rw [foldrFilterMap (fun s => (specName s, findVersion body))]
      have hmf : (fun s => (specName s, findVersion body)) =
          (fun s => (claimSpecName s, claimBlockVersion body)) :=
        funext fun s => by simp [specName_eq_claim, findVersion_eq_claim]
      rw [hmf]
    · rw [if_neg hc, if_neg hc]

/-! ### Claim C6: routing to the generic fallback -/

/-- C6: a pair of ecosystem and file name with no dedicated structured
parser (any non-python ecosystem, and for nodejs any name other than
the three lock and manifest names) routes to the generic fallback,
which emits one record per non-blank non-comment line with the trimmed
line as package name and empty version. -/
theorem claim_C6 (fname eco raw : Str) (decoded : Except Str Json)
    (hpy : eco ≠ "python".data)
    (hnode : eco = "nodejs".data →
      lowerStr fname ∉ ["package.json".data, "package-lock.json".data, "yarn.lock".data]) :
    parse_requirements fname eco raw decoded =
      .ok ((splitlines raw).filterMap fun l =>
        if pstrip l ≠ [] ∧ ['#'].isPrefixOf (lstrip l) = false then some (pstrip l, [])
        else none) := by
  unfold parse_requirements
  rw [if_neg hpy,
    if_neg (fun hand => hnode hand.1 (by rw [hand.2]; decide)),
    if_neg (fun hand => hnode hand.1 (by rw [hand.2]; decide)),
    if_neg (fun hand => hnode hand.1 (by rw [hand.2]; decide))]
  rfl

/-- C6 witness: a rust ecosystem file routes to the fallback on a
concrete input. -/
theorem claim_C6_witness :
    ("rust".data : Str) ≠ "python".data ∧
    parse_requirements "Cargo.lock".data "rust".data "serde\n# note\n\n  tokio  ".data
        (.ok Json.null) =
      .ok ((splitlines "serde\n# note\n\n  tokio  ".data).filterMap fun l =>
        if pstrip l ≠ [] ∧ ['#'].isPrefixOf (lstrip l) = false then some (pstrip l, [])
        else none) :=
  ⟨by decide, claim_C6 "Cargo.lock".data "rust".data _ _ (by decide)
    (fun h => absurd h (by decide))⟩

/-! ### Claim C3: structured-parse failures -/

/-- A pattern occurs in any list that carries it between two parts. -/
theorem isPrefixOfAppend (a b : Str) : a.isPrefixOf (a ++ b) = true := by
  induction a with
  | nil =>
    show ([] : Str).isPrefixOf b = true
    cases b <;> rfl
  | cons c t ih =>
    show (c :: t).isPrefixOf (c :: (t ++ b)) = true
    simp [List.isPrefixOf, ih]

/-- Substring test succeeds on an explicit decomposition. -/
theorem containsSeqAppend (pat b : Str) : ∀ a : Str,
    containsSeq pat ((a ++ pat) ++ b) = true := by
  intro a
  induction a with
  | nil =>
    show containsSeq pat (pat ++ b) = true
    cases hp : pat with
    | nil =>
      cases b with
      | nil => rfl
      | cons c r => rfl
    | cons c t =>
      show containsSeq (c :: t) ((c :: t) ++ b) = true
      rw [List.cons_append]
      unfold containsSeq
      have hpf := isPrefixOfAppend (c :: t) b
      rw [List.cons_append] at hpf
      rw [hpf, Bool.true_or]
  | cons c t ih =>
    show containsSeq pat (c :: ((t ++ pat) ++ b)) = true
    unfold containsSeq
    rw [ih, Bool.or_true]

/-- Does the error text mention the given file name?  Only the
RuntimeError raised by parse_requirements embeds the file path; a bare
AttributeError or IndexError message describes the attribute or the
index and never carries the path. -/
def errNamesFile (e : PyErr) (fname : Str) : Bool :=
  match e with
  | .runtime msg => containsSeq fname msg
  | _ => false

/-- C3 counterexample: well-formed JSON that is not an object (a
non-document) makes the manifest parse of parse_requirements fail with
a bare attribute error that does not name the offending file. -/
theorem claim_C3_counterexample :
    parse_requirements "package.json".data "nodejs".data [] (.ok (Json.arr [])) =
      .error .attr ∧
    errNamesFile .attr "package.json".data = false :=
  ⟨rfl, rfl⟩

/-- C3 (amended): when the structured parse fails on syntactically
malformed input (a decode error), parse_requirements fails with a
RuntimeError whose message names the offending file, and zero records
are emitted; a well-formed non-object document instead fails with a
bare AttributeError that does not name the file (still zero records). -/
theorem claim_C3 (fname raw em : Str)
    (h : lowerStr fname = "package.json".data ∨ lowerStr fname = "package-lock.json".data) :
    parse_requirements fname "nodejs".data raw (.error em) =
      .error (.runtime (("Failed to parse ".data ++ fname) ++ ':' :: ' ' :: em)) ∧
    errNamesFile (.runtime (("Failed to parse ".data ++ fname) ++ ':' :: ' ' :: em))
      fname = true := by
  constructor
  · unfold parse_requirements
    rcases h with h | h
    · rw [if_neg (by decide), if_pos ⟨rfl, h⟩]
    · rw [if_neg (by decide), if_neg (by rw [h]; exact fun hand => by cases hand.2),
        if_pos ⟨rfl, h⟩]
  · exact containsSeqAppend fname (':' :: ' ' :: em) "Failed to parse ".data

/-- C3 witness: a decode failure on a concrete lock file is wrapped
into a RuntimeError naming the file. -/
theorem claim_C3_witness :
    (lowerStr "Package-Lock.JSON".data = "package.json".data ∨
      lowerStr "Package-Lock.JSON".data = "package-lock.json".data) ∧
    parse_requirements "Package-Lock.JSON".data "nodejs".data [] (.error "bad json".data) =
      .error (.runtime (("Failed to parse ".data ++ "Package-Lock.JSON".data)
        ++ ':' :: ' ' :: "bad json".data)) :=
  ⟨Or.inr (by decide),
    (claim_C3 "Package-Lock.JSON".data [] "bad json".data (Or.inr (by decide))).1⟩

/-! ### Claim C2: package names are never blank -/

/-- The head element surviving a dropWhile fails the predicate. -/
theorem dropWhile_head_false {p : Char → Bool} : ∀ {l : Str} {c : Char} {t : Str},
    l.dropWhile p = c :: t → p c = false := by
  intro l
  induction l with
  | nil => intro c t h; cases h
  | cons a r ih =>
    intro c t h
    rw [List.dropWhile_cons] at h
    by_cases hp : p a = true
    · rw [if_pos hp] at h
      exact ih h
    · rw [if_neg hp] at h
      cases h
      simpa using hp

/-- A right strip shortens the list only at the end. -/
theorem rstrip_front (l : Str) : rstrip l <+: l := by
  unfold rstrip
  have h := List.dropWhile_suffix (l := l.reverse) (p := isWS)
  exact List.reverse_suffix.mp (by simpa using h)

/-- A left strip is the identity when the head is not whitespace. -/
theorem lstrip_cons_false {c : Char} {t : Str} (hc : isWS c = false) :
    lstrip (c :: t) = c :: t := by
  unfold lstrip
  rw [List.dropWhile_cons, if_neg (by simp [hc])]

/-- A full strip is already left stripped. -/
theorem lstrip_pstrip (l : Str) : lstrip (pstrip l) = pstrip l := by
  cases h : pstrip l with
  | nil => rfl
  | cons c t =>
    have hpre : pstrip l <+: lstrip l := rstrip_front (lstrip l)
    rw [h] at hpre
    obtain ⟨s, hs⟩ := hpre
    have hlift : lstrip l = c :: (t ++ s) := by
      rw [← hs]
      rfl
    have hc : isWS c = false := dropWhile_head_false hlift
    exact lstrip_cons_false hc

/-- C2 counterexample: the plain-list parser emits an empty package
name on a line whose text before the environment marker is empty, the
manifest and nested-tree parsers emit the empty document key verbatim,
and the block parser emits a whitespace-only name from a quoted
specifier starting with a space. -/
theorem claim_C2_counterexample :
    parse_python_requirements [";x".data] = .ok [([], [])] ∧
    parse_package_json (Json.obj [("dependencies".data, .obj [([], .str "1".data)])]) =
      .ok [([], "1".data)] ∧
    walk_npm_lock_dependencies [([], Json.obj [])] = [([], [])] ∧
    parse_yarn_lock "\" @1\":".data = [([' '], [])] := by
  refine ⟨rfl, rfl, by decide, by decide⟩

/-- C2 (amended): every pair emitted by the generic fallback parser has
a package name that is neither empty nor whitespace-only; the other
parsers do not guarantee this. -/
theorem claim_C2 (lines : List Str) (r : Rec) (h : r ∈ genericFallback lines) :
    r.1 ≠ [] ∧ lstrip r.1 ≠ [] := by
  unfold genericFallback at h
  obtain ⟨l, hl, hsome⟩ := List.mem_filterMap.mp h
  split at hsome
  · rename_i hcond
    cases hsome
    refine ⟨hcond.1, ?_⟩
    show lstrip (pstrip l) ≠ []
    rw [lstrip_pstrip]
    exact hcond.1
  · cases hsome

/-- C2 witness: the single record of a concrete fallback parse has a
non-blank name. -/
theorem claim_C2_witness :
    (("pkg".data, ([] : Str)) ∈ genericFallback ["  pkg  ".data]) ∧
    ("pkg".data, ([] : Str)).1 ≠ [] ∧
      lstrip ("pkg".data, ([] : Str)).1 ≠ [] := by
  refine ⟨?_, ?_⟩
  · decide
  · exact claim_C2 ["  pkg  ".data] _ (by decide)

/-! ### Claim C5: toolkit for reconstruction proofs -/

/-- A prefix of an appended list is a prefix of the left part or
extends it into the right part. -/
theorem prefix_of_append {p a b : Str} (h : p <+: a ++ b) :
    p <+: a ∨ ∃ q, q ≠ [] ∧ p = a ++ q ∧ q <+: b := by
  induction a generalizing p with
  | nil =>
    cases p with
    | nil => exact Or.inl List.nil_prefix
    | cons d ps => exact Or.inr ⟨d :: ps, by simp, rfl, h⟩
  | cons c t ih =>
    cases p with
    | nil => exact Or.inl List.nil_prefix
    | cons d ps =>
      rw [List.cons_append] at h
      rw [List.cons_prefix_cons] at h
      obtain ⟨rfl, hps⟩ := h
      rcases ih hps with hl | ⟨q, hq, rfl, hqb⟩
      · exact Or.inl (List.cons_prefix_cons.mpr ⟨rfl, hl⟩)
      · exact Or.inr ⟨q, hq, by rw [List.cons_append], hqb⟩

/-- A boolean prefix test that fails on a list also fails on every
extension of one of its nonempty prefixes by a character absent from
the pattern. -/
theorem prefix_not_of_append {p n L : Str} {d : Char} {rest : Str}
    (hpre : n <+: L) (hL : p.isPrefixOf L = false) (hd : d ∉ p) :
    p.isPrefixOf (n ++ d :: rest) = false := by
  by_contra hb
  simp only [Bool.not_eq_false] at hb
  rcases prefix_of_append (List.isPrefixOf_iff_prefix.mp hb) with hl | ⟨q, hq, rfl, hqb⟩
  · have : p.isPrefixOf L = true :=
      List.isPrefixOf_iff_prefix.mpr (hl.trans hpre)
    rw [hL] at this
    cases this
  · cases q with
    | nil => exact hq rfl
    | cons e qs =>
      rw [List.cons_prefix_cons] at hqb
      exact hd (by rw [hqb.1]; simp)

/-- A boolean prefix test that fails on a list fails on every prefix
continuation. -/
theorem prefix_not_trans {p n L : Str} (hpre : n <+: L)
    (hL : p.isPrefixOf L = false) : p.isPrefixOf n = false := by
  by_contra hb
  simp only [Bool.not_eq_false] at hb
  have : p.isPrefixOf L = true :=
    List.isPrefixOf_iff_prefix.mpr ((List.isPrefixOf_iff_prefix.mp hb).trans hpre)
  rw [hL] at this
  cases this

/-- Left strips are suffixes. -/
theorem lstrip_suffix (l : Str) : lstrip l <:+ l := List.dropWhile_suffix isWS

/-- Full strips are infixes. -/
theorem pstrip_within (l : Str) : pstrip l <:+: l :=
  ((rstrip_front (lstrip l)).isInfix).trans (lstrip_suffix l).isInfix

/-- Members of a full strip are members. -/
theorem mem_pstrip {c : Char} {l : Str} (h : c ∈ pstrip l) : c ∈ l :=
  (pstrip_within l).sublist.mem h

/-- A right strip is the identity when the last element is not
whitespace. -/
theorem rstrip_eq_self {l : Str}
    (h : ∀ c, l.getLast? = some c → isWS c = false) : rstrip l = l := by
  unfold rstrip
  cases hr : l.reverse with
  | nil =>
    rw [List.dropWhile_nil]
    rw [← hr, List.reverse_reverse]
  | cons c t =>
    have hc : isWS c = false := by
      apply h
      rw [← List.head?_reverse, hr]
      rfl
    rw [List.dropWhile_cons, if_neg (by simp [hc]), ← hr, List.reverse_reverse]

/-- The head of a full strip is not whitespace. -/
theorem pstrip_head_false {l : Str} {c : Char} {t : Str}
    (h : pstrip l = c :: t) : isWS c = false := by
  have := lstrip_pstrip l
  rw [h] at this
  exact dropWhile_head_false this

/-- The last element of a full strip is not whitespace. -/
theorem pstrip_last_false {l : Str} {c : Char}
    (h : (pstrip l).getLast? = some c) : isWS c = false := by
  unfold pstrip rstrip at h
  rw [← List.head?_reverse, List.reverse_reverse] at h
  cases hd : (lstrip l).reverse.dropWhile isWS with
  | nil => rw [hd] at h; cases h
  | cons d t =>
    rw [hd] at h
    cases h
    exact dropWhile_head_false hd

/-- Stripping is idempotent. -/
theorem pstrip_idem (l : Str) : pstrip (pstrip l) = pstrip l := by
  show rstrip (lstrip (pstrip l)) = pstrip l
  rw [lstrip_pstrip]
  apply rstrip_eq_self
  intro c hc
  exact pstrip_last_false hc

/-- A strip of a list whose head and last element are not whitespace is
the identity. -/
theorem pstrip_eq_self {c : Char} {t : Str} (hc : isWS c = false)
    (hlast : ∀ d, (c :: t).getLast? = some d → isWS d = false) :
    pstrip (c :: t) = c :: t := by
  show rstrip (lstrip (c :: t)) = c :: t
  rw [lstrip_cons_false hc]
  exact rstrip_eq_self hlast

/-- Appending a trailing whitespace character does not change the right
strip. -/
theorem rstrip_append_ws {l : Str} {d : Char} (hd : isWS d = true) :
    rstrip (l ++ [d]) = rstrip l := by
  unfold rstrip
  rw [List.reverse_append]
  show ((d :: l.reverse).dropWhile isWS).reverse = _
  rw [List.dropWhile_cons, if_pos (by simp [hd])]

/-- A right strip of a whitespace-free list is the identity. -/
theorem rstrip_all_nonws {l : Str} (h : ∀ c ∈ l, isWS c = false) : rstrip l = l := by
  apply rstrip_eq_self
  intro c hc
  obtain ⟨hne, heq⟩ := List.mem_getLast?_eq_getLast hc
  exact h c (heq ▸ List.getLast_mem hne)

/-! Take and drop across appended lists. -/

/-- takeWhile over an append whose left part satisfies the predicate. -/
theorem takeWhile_append_all {p : Char → Bool} :
    ∀ {a : Str}, (∀ c ∈ a, p c = true) → ∀ b, (a ++ b).takeWhile p = a ++ b.takeWhile p := by
  intro a
  induction a with
  | nil => intro _ b; rfl
  | cons c t ih =>
    intro h b
    rw [List.cons_append, List.takeWhile_cons, if_pos (h c (by simp)), List.cons_append]
    rw [ih (fun d hd => h d (by simp [hd])) b]

/-- dropWhile over an append whose left part satisfies the predicate. -/
theorem dropWhile_append_all {p : Char → Bool} :
    ∀ {a : Str}, (∀ c ∈ a, p c = true) → ∀ b, (a ++ b).dropWhile p = b.dropWhile p := by
  intro a
  induction a with
  | nil => intro _ b; rfl
  | cons c t ih =>
    intro h b
    rw [List.cons_append, List.dropWhile_cons, if_pos (h c (by simp))]
    exact ih (fun d hd => h d (by simp [hd])) b

/-- takeWhile keeps everything when the predicate always holds. -/
theorem takeWhile_all {p : Char → Bool} {l : Str} (h : ∀ c ∈ l, p c = true) :
    l.takeWhile p = l := by
  have := takeWhile_append_all h []
  simpa using this

/-- dropWhile drops everything when the predicate always holds. -/
theorem dropWhile_all {p : Char → Bool} {l : Str} (h : ∀ c ∈ l, p c = true) :
    l.dropWhile p = [] := by
  have := dropWhile_append_all h []
  simpa using this

/-- Stopping form: the left part satisfies the predicate and the next
character fails it. -/
theorem takeWhile_append_stop {p : Char → Bool} {a : Str} {d : Char} {rest : Str}
    (ha : ∀ c ∈ a, p c = true) (hd : p d = false) :
    (a ++ d :: rest).takeWhile p = a := by
  rw [takeWhile_append_all ha, List.takeWhile_cons, if_neg (by simp [hd])]
  simp

/-- Stopping form of dropWhile. -/
theorem dropWhile_append_stop {p : Char → Bool} {a : Str} {d : Char} {rest : Str}
    (ha : ∀ c ∈ a, p c = true) (hd : p d = false) :
    (a ++ d :: rest).dropWhile p = d :: rest := by
  rw [dropWhile_append_all ha, List.dropWhile_cons, if_neg (by simp [hd])]

/-! Inline-comment pattern toolkit. -/

/-- Does the comment pattern match at any position of the list. -/
def hasWsHash : Str → Bool
  | [] => false
  | c :: rest => wsHash (c :: rest) || hasWsHash rest

/-- The whitespace-then-hash scan is monotone under extension. -/
theorem hashAfterWS_mono {r post : Str} (h : hashAfterWS r = true) :
    hashAfterWS (r ++ post) = true := by
  induction r with
  | nil => cases h
  | cons c t ih =>
    simp only [hashAfterWS] at h ⊢
    rw [Bool.or_eq_true] at h ⊢
    rcases h with hc | hrest
    · exact Or.inl hc
    · rw [Bool.and_eq_true] at hrest ⊢
      exact Or.inr ⟨hrest.1, ih hrest.2⟩

/-- The comment-pattern head match is monotone under extension. -/
theorem wsHash_mono {t post : Str} (h : wsHash t = true) :
    wsHash (t ++ post) = true := by
  cases t with
  | nil => cases h
  | cons c r =>
    rw [List.cons_append]
    simp only [wsHash] at h ⊢
    rw [Bool.and_eq_true] at h ⊢
    exact ⟨h.1, hashAfterWS_mono h.2⟩

/-- The position scan succeeds exactly when a suffix matches. -/
theorem hasWsHash_iff {l : Str} :
    hasWsHash l = true ↔ ∃ t, t <:+ l ∧ wsHash t = true := by
  induction l with
  | nil =>
    constructor
    · intro h; cases h
    · rintro ⟨t, ht, hw⟩
      rw [List.suffix_nil.mp ht] at hw
      cases hw
  | cons c rest ih =>
    unfold hasWsHash
    rw [Bool.or_eq_true, ih]
    constructor
    · rintro (hw | ⟨t, ht, hw⟩)
      · exact ⟨c :: rest, List.suffix_refl _, hw⟩
      · exact ⟨t, ht.trans (List.suffix_cons c rest), hw⟩
    · rintro ⟨t, ht, hw⟩
      rcases List.suffix_cons_iff.mp ht with rfl | ht
      · exact Or.inl hw
      · exact Or.inr ⟨t, ht, hw⟩

/-- A pattern-free list stays pattern free on every infix. -/
theorem hasWsHash_infix {u l : Str} (hinf : u <:+: l)
    (h : hasWsHash l = false) : hasWsHash u = false := by
  by_contra hb
  simp only [Bool.not_eq_false] at hb
  obtain ⟨t, ht, hw⟩ := hasWsHash_iff.mp hb
  obtain ⟨x, hx⟩ := ht
  obtain ⟨pre, post, hl⟩ := hinf
  have hsuf : (t ++ post) <:+ l := by
    refine ⟨pre ++ x, ?_⟩
    rw [← hl, ← hx]
    simp
  have : hasWsHash l = true :=
    hasWsHash_iff.mpr ⟨t ++ post, hsuf, wsHash_mono hw⟩
  rw [h] at this
  cases this

/-- The comment cut is the identity on pattern-free lists. -/
theorem commentCut_eq_self : ∀ {l : Str}, hasWsHash l = false → commentCut l = l := by
  intro l
  induction l with
  | nil => intro _; rfl
  | cons c rest ih =>
    intro h
    unfold hasWsHash at h
    rw [Bool.or_eq_false_iff] at h
    unfold commentCut
    rw [if_neg (by simp [h.1]), ih h.2]

/-- The piece kept by the comment cut is a prefix. -/
theorem commentCut_prefix : ∀ l : Str, commentCut l <+: l := by
  intro l
  induction l with
  | nil => exact List.nil_prefix
  | cons c rest ih =>
    unfold commentCut
    by_cases hw : wsHash (c :: rest) = true
    · rw [if_pos hw]
      exact List.nil_prefix
    · rw [if_neg hw]
      exact List.cons_prefix_cons.mpr ⟨rfl, ih⟩

/-- The piece kept by the comment cut is pattern free. -/
theorem commentCut_no : ∀ l : Str, hasWsHash (commentCut l) = false := by
  intro l
  induction l with
  | nil => rfl
  | cons c rest ih =>
    unfold commentCut
    by_cases hw : wsHash (c :: rest) = true
    · rw [if_pos hw]
      rfl
    · rw [if_neg hw]
      unfold hasWsHash
      rw [ih, Bool.or_false]
      by_contra hb
      simp only [Bool.not_eq_false] at hb
      cases hcc : commentCut rest with
      | nil =>
        rw [hcc] at hb
        simp [wsHash, hashAfterWS] at hb
      | cons d t =>
        rw [hcc] at hb
        apply hw
        have hpre : (c :: d :: t) <+: (c :: rest) :=
          List.cons_prefix_cons.mpr ⟨rfl, hcc ▸ commentCut_prefix rest⟩
        obtain ⟨s, hs⟩ := hpre
        rw [← hs]
        exact @wsHash_mono (c :: d :: t) s hb

/-- A whitespace-free list followed by a pattern-free list is pattern
free when the junction character is not a hash after the whitespace. -/
theorem hasWsHash_append_nonws {n : Str} (hn : ∀ c ∈ n, isWS c = false) {b : Str}
    (hb : hasWsHash b = false) : hasWsHash (n ++ b) = false := by
  induction n with
  | nil => exact hb
  | cons c t ih =>
    rw [List.cons_append]
    simp only [hasWsHash]
    rw [ih (fun d hd => hn d (by simp [hd])), Bool.or_false]
    simp only [wsHash]
    rw [hn c (by simp)]
    rfl

/-- A fully whitespace-free list is pattern free. -/
theorem hasWsHash_all_nonws {l : Str} (h : ∀ c ∈ l, isWS c = false) :
    hasWsHash l = false := by
  have := hasWsHash_append_nonws h (b := []) rfl
  simpa using this

/-! Character class consequences. -/

/-- Name characters are not whitespace, semicolons, or hashes. -/
theorem nameChar_props {c : Char} (h : nameChar c = true) :
    isWS c = false ∧ c ≠ ';' ∧ c ≠ '#' := by
  refine ⟨?_, ?_, ?_⟩
  · by_contra hw
    rw [Bool.not_eq_false] at hw
    unfold isWS at hw
    rw [Bool.or_eq_true, Bool.or_eq_true, Bool.or_eq_true] at hw
    rcases hw with ((h1 | h1) | h1) | h1 <;>
      · have := of_decide_eq_true h1
        subst this
        exact absurd h (by decide)
  · intro he
    subst he
    exact absurd h (by decide)
  · intro he
    subst he
    exact absurd h (by decide)

/-- Version characters are not whitespace and not semicolons. -/
theorem versChar_props {c : Char} (h : versChar c = true) :
    isWS c = false ∧ c ≠ ';' := by
  unfold versChar at h
  rw [Bool.and_eq_true] at h
  obtain ⟨h1, h2⟩ := h
  rw [Bool.not_eq_true'] at h1
  exact ⟨h1, by simpa using h2⟩

/-- A space-free list does not contain the space-at pattern. -/
theorem containsSeq_space_false : ∀ {l : Str}, ' ' ∉ l →
    containsSeq [' ', '@'] l = false := by
  intro l
  induction l with
  | nil => intro _; rfl
  | cons c rest ih =>
    intro h
    unfold containsSeq
    rw [ih (fun hm => h (by simp [hm]))]
    rw [Bool.or_false]
    cases hp : [' ', '@'].isPrefixOf (c :: rest) with
    | false => rfl
    | true =>
      rw [List.isPrefixOf_iff_prefix, List.cons_prefix_cons] at hp
      exact absurd (by rw [← hp.1]; simp : ' ' ∈ c :: rest) h

/-- A membership version of a failing startswith tuple check. -/
theorem startsAny_false_mem {L : Str} {ps : List Str} (h : startsAny L ps = false)
    {p : Str} (hp : p ∈ ps) : p.isPrefixOf L = false := by
  unfold startsAny at h
  rw [List.any_eq_false] at h
  have hnp := h p hp
  rw [Bool.not_eq_true] at hnp
  exact hnp

/-- A failing startswith tuple check transfers to prefix extensions by
a character outside every pattern. -/
theorem startsAny_append_false {ps : List Str} {n L : Str} {d : Char} {rest : Str}
    (hpre : n <+: L) (hL : startsAny L ps = false) (hd : ∀ p ∈ ps, d ∉ p) :
    startsAny (n ++ d :: rest) ps = false := by
  unfold startsAny
  rw [List.any_eq_false]
  intro p hp
  simp only [Bool.not_eq_true]
  exact prefix_not_of_append hpre (startsAny_false_mem hL hp) (hd p hp)

/-- A failing startswith tuple check transfers to prefixes. -/
theorem startsAny_prefix_false {ps : List Str} {n L : Str}
    (hpre : n <+: L) (hL : startsAny L ps = false) :
    startsAny n ps = false := by
  unfold startsAny
  rw [List.any_eq_false]
  intro p hp
  simp only [Bool.not_eq_true]
  exact prefix_not_trans hpre (startsAny_false_mem hL hp)

/-- A full strip of a whitespace-free list is the identity. -/
theorem pstrip_all_nonws {l : Str} (h : ∀ c ∈ l, isWS c = false) : pstrip l = l := by
  cases l with
  | nil => rfl
  | cons c t =>
    show rstrip (lstrip (c :: t)) = c :: t
    rw [lstrip_cons_false (h c (by simp))]
    exact rstrip_all_nonws h

/-- The extras skip leaves a list alone when it does not start with an
opening bracket. -/
theorem extrasSkip_ne {c : Char} (hc : c ≠ '[') (xs : Str) :
    extrasSkip (c :: xs) = c :: xs := by
  unfold extrasSkip
  split
  · rename_i rest heq
    rw [List.cons.injEq] at heq
    exact absurd heq.1 hc
  · rfl

/-- A prefix of a left-stripped list is left stripped. -/
theorem lstrip_prefix_transfer {x y : Str} (h : x <+: y) (hy : lstrip y = y) :
    lstrip x = x := by
  cases x with
  | nil => rfl
  | cons c t =>
    obtain ⟨s, hs⟩ := h
    apply lstrip_cons_false
    by_contra hw
    rw [Bool.not_eq_false] at hw
    have : lstrip y = lstrip (t ++ s) := by
      rw [← hs, List.cons_append]
      unfold lstrip
      rw [List.dropWhile_cons, if_pos (by simp [hw])]
    have hlen : (lstrip (t ++ s)).length ≤ (t ++ s).length :=
      (List.dropWhile_suffix (p := isWS) (l := t ++ s)).length_le
    rw [hy] at this
    have hy2 : y.length = (lstrip (t ++ s)).length := by rw [this]
    rw [← hs] at hy2
    simp only [List.length_cons, List.length_append] at hy2
    simp only [List.length_append] at hlen
    omega

/-- Properties of the processed line: it is a stripped,
comment-pattern-free, semicolon-free prefix of the stripped line. -/
theorem processedLine_spec {line : Str} (hl : lstrip line = line) :
    processedLine line <+: line ∧
    hasWsHash (processedLine line) = false ∧
    ';' ∉ processedLine line ∧
    pstrip (processedLine line) = processedLine line := by
  have hccpre : commentCut line <+: line := commentCut_prefix line
  have hl1pre : pstrip (commentCut line) <+: line := by
    have hlc : lstrip (commentCut line) = commentCut line :=
      lstrip_prefix_transfer hccpre hl
    show rstrip (lstrip (commentCut line)) <+: line
    rw [hlc]
    exact (rstrip_front (commentCut line)).trans hccpre
  have hl1hash : hasWsHash (pstrip (commentCut line)) = false :=
    hasWsHash_infix (pstrip_within (commentCut line)) (commentCut_no line)
  unfold processedLine
  by_cases hsemi : ';' ∈ pstrip (commentCut line)
  · rw [if_pos hsemi]
    set l1 := pstrip (commentCut line) with hl1
    have htw : l1.takeWhile (· ≠ ';') <+: l1 := List.takeWhile_prefix _
    have hlp : lstrip l1 = l1 := lstrip_pstrip (commentCut line)
    have hltw : lstrip (l1.takeWhile (· ≠ ';')) = l1.takeWhile (· ≠ ';') :=
      lstrip_prefix_transfer htw hlp
    have hpre2 : pstrip (l1.takeWhile (· ≠ ';')) <+: l1 := by
      show rstrip (lstrip _) <+: l1
      rw [hltw]
      exact (rstrip_front _).trans htw
    refine ⟨(hpre2.trans hl1pre), ?_, ?_, pstrip_idem _⟩
    · exact hasWsHash_infix ((hpre2).isInfix) hl1hash
    · intro hm
      have hm2 := mem_pstrip hm
      have := List.mem_takeWhile_imp hm2
      simp at this
  · rw [if_neg hsemi]
    exact ⟨hl1pre, hl1hash, hsemi, pstrip_idem _⟩

/-- The operator alternation fails on the empty rest. -/
theorem tryOps_nil : tryOps [] = none := rfl

/-- The operator alternation on a double equals followed by a nonempty
version token yields that token. -/
theorem tryOps_eqeq {v : Str} (hne : v ≠ []) (hv : ∀ c ∈ v, versChar c = true) :
    tryOps ('=' :: '=' :: v) = some v := by
  obtain ⟨c0, t0, rfl⟩ : ∃ c0 t0, v = c0 :: t0 := by
    cases v with
    | nil => exact absurd rfl hne
    | cons a b => exact ⟨a, b, rfl⟩
  have hdw : (c0 :: t0).dropWhile isWS = c0 :: t0 := by
    rw [List.dropWhile_cons, if_neg (by simp [(versChar_props (hv c0 (by simp))).1])]
  have htw : (c0 :: t0).takeWhile versChar = c0 :: t0 := takeWhile_all hv
  have htop : tryOp ('=' :: '=' :: c0 :: t0) ['=', '='] = some (c0 :: t0) := by
    unfold tryOp
    have hp : (['=', '='] : Str).isPrefixOf ('=' :: '=' :: c0 :: t0) = true :=
      isPrefixOfAppend ['=', '='] (c0 :: t0)
    rw [if_pos hp]
    show (if List.takeWhile versChar (List.dropWhile isWS (c0 :: t0)) = [] then none
      else some (List.takeWhile versChar (List.dropWhile isWS (c0 :: t0)))) = _
    rw [hdw, htw, if_neg (show ¬(c0 :: t0 = []) by simp)]
  unfold tryOps opsList
  rw [List.findSome?_cons, htop]

theorem reparse_fallback {l2 L : Str}
    (hne : l2 ≠ [])
    (hps : pstrip l2 = l2)
    (hhashfree : hasWsHash l2 = false)
    (hsemi : ';' ∉ l2)
    (hcs : containsSeq [' ', '@'] l2 = false)
    (hmr : matchReq l2 = none)
    (hpre : l2 <+: L)
    (hH : ['#'].isPrefixOf L = false)
    (hd1 : startsAny L dirPrefixes1 = false)
    (hd2 : startsAny L dirPrefixes2 = false) :
    parsePythonLine l2 = .oneRec (l2, []) := by
  have hproc : processedLine l2 = l2 := by
    simp only [processedLine]
    rw [commentCut_eq_self hhashfree, hps, if_neg hsemi]
  simp only [parsePythonLine]
  rw [hps, if_neg hne,
    if_neg (by simp [prefix_not_trans hpre hH]),
    if_neg (by simp [startsAny_prefix_false hpre hd1]),
    if_neg (by simp [startsAny_prefix_false hpre hd2]),
    hproc]
  unfold parseBody
  rw [if_neg (by simp [hcs]), hmr]

theorem reparse_word {n L : Str}
    (hne : n ≠ [])
    (hchars : ∀ c ∈ n, nameChar c = true)
    (hpre : n <+: L)
    (hH : ['#'].isPrefixOf L = false)
    (hd1 : startsAny L dirPrefixes1 = false)
    (hd2 : startsAny L dirPrefixes2 = false) :
    parsePythonLine n = .oneRec (n, []) := by
  have hnws : ∀ c ∈ n, isWS c = false := fun c hc => (nameChar_props (hchars c hc)).1
  have hps : pstrip n = n := pstrip_all_nonws hnws
  have hsemi : ';' ∉ n := fun hm => (nameChar_props (hchars ';' hm)).2.1 rfl
  have hsp : ' ' ∉ n := fun hm => absurd (hnws ' ' hm) (by decide)
  have hcs : containsSeq [' ', '@'] n = false := containsSeq_space_false hsp
  have hhashfree : hasWsHash n = false := hasWsHash_all_nonws hnws
  have hdwn : n.dropWhile isWS = n := by
    cases n with
    | nil => rfl
    | cons c t => rw [List.dropWhile_cons, if_neg (by simp [hnws c (by simp)])]
  have hmr : matchReq n = some (n, []) := by
    simp only [matchReq]
    rw [hdwn, takeWhile_all hchars, dropWhile_all hchars]
    rw [if_neg hne]
    show (match tryOps ((extrasSkip []).dropWhile isWS) with
      | some v => some (n, v)
      | none => some (n, [])) = some (n, [])
    rw [show extrasSkip [] = [] from rfl]
    rw [show ([] : Str).dropWhile isWS = [] from rfl, tryOps_nil]
  have hproc : processedLine n = n := by
    simp only [processedLine]
    rw [commentCut_eq_self hhashfree, hps, if_neg hsemi]
  simp only [parsePythonLine]
  rw [hps, if_neg hne,
    if_neg (by simp [prefix_not_trans hpre hH]),
    if_neg (by simp [startsAny_prefix_false hpre hd1]),
    if_neg (by simp [startsAny_prefix_false hpre hd2]),
    hproc]
  unfold parseBody
  rw [if_neg (by simp [hcs]), hmr]

theorem reparse_pinned {n v L : Str}
    (hne : n ≠ [])
    (hchars : ∀ c ∈ n, nameChar c = true)
    (hvne : v ≠ [])
    (hvchars : ∀ c ∈ v, versChar c = true)
    (hpre : n <+: L)
    (hH : ['#'].isPrefixOf L = false)
    (hd1 : startsAny L dirPrefixes1 = false)
    (hd2 : startsAny L dirPrefixes2 = false) :
    parsePythonLine (n ++ '=' :: '=' :: v) = .oneRec (n, v) := by
  have hnws : ∀ c ∈ n, isWS c = false := fun c hc => (nameChar_props (hchars c hc)).1
  have hvws : ∀ c ∈ v, isWS c = false := fun c hc => (versChar_props (hvchars c hc)).1
  have hallws : ∀ c ∈ n ++ '=' :: '=' :: v, isWS c = false := by
    intro c hc
    rcases List.mem_append.mp hc with hc | hc
    · exact hnws c hc
    · rcases List.mem_cons.mp hc with rfl | hc
      · decide
      · rcases List.mem_cons.mp hc with rfl | hc
        · decide
        · exact hvws c hc
  have hrne : n ++ '=' :: '=' :: v ≠ [] := by
    cases n with
    | nil => simp
    | cons c t => simp
  have hps : pstrip (n ++ '=' :: '=' :: v) = n ++ '=' :: '=' :: v :=
    pstrip_all_nonws hallws
  have hsemi : ';' ∉ n ++ '=' :: '=' :: v := by
    intro hm
    rcases List.mem_append.mp hm with hc | hc
    · exact (nameChar_props (hchars ';' hc)).2.1 rfl
    · rcases List.mem_cons.mp hc with he | hc
      · cases he
      · rcases List.mem_cons.mp hc with he | hc
        · cases he
        · exact (versChar_props (hvchars ';' hc)).2 rfl
  have hsp : ' ' ∉ n ++ '=' :: '=' :: v := fun hm => absurd (hallws ' ' hm) (by decide)
  have hcs : containsSeq [' ', '@'] (n ++ '=' :: '=' :: v) = false :=
    containsSeq_space_false hsp
  have hhashfree : hasWsHash (n ++ '=' :: '=' :: v) = false := hasWsHash_all_nonws hallws
  have hdwn : (n ++ '=' :: '=' :: v).dropWhile isWS = n ++ '=' :: '=' :: v := by
    cases hn : n ++ '=' :: '=' :: v with
    | nil => rfl
    | cons c t =>
      rw [List.dropWhile_cons, if_neg (by simp [hallws c (by rw [hn]; simp)])]
  have hmr : matchReq (n ++ '=' :: '=' :: v) = some (n, v) := by
    simp only [matchReq]
    rw [hdwn, takeWhile_append_stop hchars (by decide), if_neg hne,
      dropWhile_append_stop hchars (by decide),
      extrasSkip_ne (by decide) ('=' :: v)]
    rw [show ('=' :: '=' :: v).dropWhile isWS = '=' :: '=' :: v by
      rw [List.dropWhile_cons, if_neg (by decide)]]
    rw [tryOps_eqeq hvne hvchars]
  have hproc : processedLine (n ++ '=' :: '=' :: v) = n ++ '=' :: '=' :: v := by
    simp only [processedLine]
    rw [commentCut_eq_self hhashfree, hps, if_neg hsemi]
  simp only [parsePythonLine]
  rw [hps, if_neg hrne,
    if_neg (fun hx => by
      rw [prefix_not_of_append hpre hH (d := '=') (by decide)] at hx
      cases hx),
    if_neg (fun hx => by
      rw [startsAny_append_false hpre hd1 (d := '=') (by decide)] at hx
      cases hx),
    if_neg (fun hx => by
      rw [startsAny_append_false hpre hd2 (d := '=') (by decide)] at hx
      cases hx),
    hproc]
  unfold parseBody
  rw [if_neg (by simp [hcs]), hmr]

theorem reparse_vcs {tok url L : Str}
    (htokne : tok ≠ [])
    (htokws : ∀ c ∈ tok, isWS c = false)
    (htokat : ∀ c ∈ tok, c ≠ '@')
    (htoksemi : ';' ∉ tok)
    (hurl : pstrip url = url)
    (hurlhash : hasWsHash url = false)
    (hurlsemi : ';' ∉ url)
    (hpre : tok <+: L)
    (hH : ['#'].isPrefixOf L = false)
    (hd1 : startsAny L dirPrefixes1 = false)
    (hd2 : startsAny L dirPrefixes2 = false) :
    parsePythonLine (tok ++ ' ' :: '@' :: url) = .oneRec (tok, '@' :: ' ' :: url) := by
  obtain ⟨c0, t0, rfl⟩ : ∃ c0 t0, tok = c0 :: t0 := by
    cases tok with
    | nil => exact absurd rfl htokne
    | cons a b => exact ⟨a, b, rfl⟩
  have hps : pstrip ((c0 :: t0) ++ ' ' :: '@' :: url) = (c0 :: t0) ++ ' ' :: '@' :: url := by
    rw [List.cons_append]
    apply pstrip_eq_self (htokws c0 (by simp))
    intro d hd
    rw [show c0 :: (t0 ++ ' ' :: '@' :: url) = (c0 :: t0) ++ ([' ', '@'] ++ url) from by simp] at hd
    rw [List.getLast?_append_of_ne_nil (c0 :: t0) (by simp)] at hd
    cases hu : url with
    | nil =>
      rw [hu] at hd
      cases hd
      decide
    | cons u0 ut =>
      rw [List.getLast?_append_of_ne_nil [' ', '@'] (by rw [hu]; simp)] at hd
      rw [← hurl] at hd
      exact pstrip_last_false hd
  have hsemi : ';' ∉ (c0 :: t0) ++ ' ' :: '@' :: url := by
    intro hm
    rcases List.mem_append.mp hm with hc | hc
    · exact htoksemi hc
    · rcases List.mem_cons.mp hc with he | hc
      · cases he
      · rcases List.mem_cons.mp hc with he | hc
        · cases he
        · exact hurlsemi hc
  have hhashfree : hasWsHash ((c0 :: t0) ++ ' ' :: '@' :: url) = false := by
    apply hasWsHash_append_nonws htokws
    simp only [hasWsHash, wsHash, hashAfterWS]
    rw [hurlhash]
    simp [isWS]
  have hproc : processedLine ((c0 :: t0) ++ ' ' :: '@' :: url) =
      (c0 :: t0) ++ ' ' :: '@' :: url := by
    simp only [processedLine]
    rw [commentCut_eq_self hhashfree, hps, if_neg hsemi]
  have hcs : containsSeq [' ', '@'] ((c0 :: t0) ++ ' ' :: '@' :: url) = true := by
    have hx := containsSeqAppend [' ', '@'] url (c0 :: t0)
    rw [List.append_assoc] at hx
    exact hx
  have hta : ∀ c ∈ (c0 :: t0) ++ [' '], (decide (c ≠ '@')) = true := by
    intro c hc
    rcases List.mem_append.mp hc with hc | hc
    · exact decide_eq_true (htokat c hc)
    · rcases List.mem_cons.mp hc with rfl | hc
      · decide
      · cases hc
  have hshape : (c0 :: t0) ++ ' ' :: '@' :: url = ((c0 :: t0) ++ [' ']) ++ '@' :: url := by
    simp
  have hvcs : parseVCS ((c0 :: t0) ++ ' ' :: '@' :: url) =
      .oneRec (c0 :: t0, '@' :: ' ' :: url) := by
    simp only [parseVCS]
    rw [hshape, takeWhile_append_stop hta (by decide), dropWhile_append_stop hta (by decide)]
    have h3 : pstrip ((c0 :: t0) ++ [' ']) = c0 :: t0 := by
      show rstrip (lstrip _) = _
      rw [show (c0 :: t0) ++ [' '] = c0 :: (t0 ++ [' ']) from rfl]
      rw [lstrip_cons_false (htokws c0 (by simp))]
      rw [show c0 :: (t0 ++ [' ']) = (c0 :: t0) ++ [' '] from rfl]
      rw [rstrip_append_ws (by decide)]
      exact rstrip_all_nonws htokws
    rw [h3, if_neg (by simp)]
    rw [show ('@' :: url).drop 1 = url from rfl, hurl]
    rw [takeWhile_all (fun c hc => by rw [htokws c hc]; rfl)]
  simp only [parsePythonLine]
  rw [hps, if_neg (by simp),
    if_neg (fun hx => by
      rw [prefix_not_of_append hpre hH (d := ' ') (by decide)] at hx
      cases hx),
    if_neg (fun hx => by
      rw [startsAny_append_false hpre hd1 (d := ' ') (by decide)] at hx
      cases hx),
    if_neg (fun hx => by
      rw [startsAny_append_false hpre hd2 (d := ' ') (by decide)] at hx
      cases hx),
    hproc]
  unfold parseBody
  rw [if_pos hcs, hvcs]

/-! ### Plain-list reconstruction -/

/-- Textual reconstruction of one plain-list record: a bare name for an
empty version, the direct-reference line for an at-marked version, and
an exact pin otherwise. -/
def renderPy : Rec → Str
  | (n, v) =>
    if v = [] then n
    else if (['@', ' '] : Str).isPrefixOf v then n ++ ' ' :: '@' :: v.drop 2
    else n ++ '=' :: '=' :: v

/-- Conversion from a refuted Bool truth hypothesis to an equation. -/
theorem bool_not_true {b : Bool} (h : ¬ b = true) : b = false := by
  cases b
  · rfl
  · exact absurd rfl h

/-- A successful operator alternative yields a nonempty token of version
characters. -/
theorem tryOp_inv {r op vv : Str} (h : tryOp r op = some vv) :
    vv ≠ [] ∧ ∀ c ∈ vv, versChar c = true := by
  simp only [tryOp] at h
  split at h
  · split at h
    · exact Option.noConfusion h
    · rename_i hne
      rw [Option.some.injEq] at h
      subst h
      exact ⟨hne, fun c hc => List.mem_takeWhile_imp hc⟩
  · exact Option.noConfusion h

/-- A successful operator alternation yields a nonempty token of version
characters. -/
theorem tryOps_inv {r vv : Str} (h : tryOps r = some vv) :
    vv ≠ [] ∧ ∀ c ∈ vv, versChar c = true := by
  unfold tryOps at h
  obtain ⟨op, hmem, hop⟩ := List.exists_of_findSome?_eq_some h
  exact tryOp_inv hop

/-- Shape of a successful regex match: the name group is a nonempty
prefix of the whitespace-stripped line made of name characters, and the
version group is empty or a nonempty token of version characters. -/
theorem matchReq_inv {l n v : Str} (h : matchReq l = some (n, v)) :
    n ≠ [] ∧ (∀ c ∈ n, nameChar c = true) ∧ n <+: l.dropWhile isWS ∧
      (v = [] ∨ (v ≠ [] ∧ ∀ c ∈ v, versChar c = true)) := by
  simp only [matchReq] at h
  split at h
  · exact Option.noConfusion h
  · rename_i hne
    split at h
    · rename_i v0 hv0
      rw [Option.some.injEq, Prod.mk.injEq] at h
      obtain ⟨hn1, hv1⟩ := h
      subst hn1
      subst hv1
      exact ⟨hne, fun c hc => List.mem_takeWhile_imp hc, List.takeWhile_prefix _,
        Or.inr (tryOps_inv hv0)⟩
    · rw [Option.some.injEq, Prod.mk.injEq] at h
      obtain ⟨hn1, hv1⟩ := h
      subst hn1
      subst hv1
      exact ⟨hne, fun c hc => List.mem_takeWhile_imp hc, List.takeWhile_prefix _,
        Or.inl rfl⟩

/-- Members of the whitespace token of a stripped list are not
whitespace. -/
theorem mem_tokWS {x : Str} {c : Char} :
    c ∈ (pstrip x).takeWhile (fun c => !isWS c) → isWS c = false := by
  intro hc
  have := List.mem_takeWhile_imp hc
  simpa using this

/-- Members of the head token of a stripped list are members of the
list. -/
theorem mem_tok {q : Char → Bool} {x : Str} {c : Char}
    (hc : c ∈ (pstrip x).takeWhile q) : c ∈ x :=
  mem_pstrip ((List.takeWhile_prefix _).sublist.mem hc)

/-- The head token of a stripped list is a prefix of the list when the
list carries no leading whitespace. -/
theorem tok_front {q : Char → Bool} {x : Str} (hx : lstrip x = x) :
    (pstrip x).takeWhile q <+: x := by
  have h1 : (pstrip x).takeWhile q <+: pstrip x := List.takeWhile_prefix _
  have h2 : pstrip x <+: x := by
    show rstrip (lstrip x) <+: x
    rw [hx]
    exact rstrip_front x
  exact h1.trans h2

/-- Shape of a successful direct-reference branch on a stripped,
comment-free, semicolon-free line: the name is a whitespace-free,
at-free, semicolon-free prefix of the line and the version is the at
marker followed by a stripped, comment-free, semicolon-free url. -/
theorem parseVCS_inv {l2 n v : Str} (hl : lstrip l2 = l2)
    (hhash : hasWsHash l2 = false) (hsemi : ';' ∉ l2)
    (h : parseVCS l2 = LineRes.oneRec (n, v)) :
    (∀ c ∈ n, isWS c = false) ∧ (∀ c ∈ n, c ≠ '@') ∧ ';' ∉ n ∧ n <+: l2 ∧
      ∃ url, v = '@' :: ' ' :: url ∧ pstrip url = url ∧
        hasWsHash url = false ∧ ';' ∉ url := by
  simp only [parseVCS] at h
  split at h
  · exact LineRes.noConfusion h
  · rw [LineRes.oneRec.injEq, Prod.mk.injEq] at h
    obtain ⟨hn1, hv1⟩ := h
    subst hn1
    subst hv1
    have hx : lstrip (l2.takeWhile fun c => decide (c ≠ '@')) =
        l2.takeWhile fun c => decide (c ≠ '@') :=
      lstrip_prefix_transfer (List.takeWhile_prefix _) hl
    have hsuf : ((l2.dropWhile fun c => decide (c ≠ '@')).drop 1) <:+ l2 :=
      (List.drop_suffix 1 _).trans (List.dropWhile_suffix _)
    refine ⟨fun c hc => mem_tokWS hc,
      fun c hc => ?_,
      fun hm => hsemi ((List.takeWhile_prefix _).sublist.mem (mem_tok hm)),
      (tok_front hx).trans (List.takeWhile_prefix _),
      _, rfl, pstrip_idem _,
      hasWsHash_infix ((pstrip_within _).trans hsuf.isInfix) hhash,
      fun hm => hsemi (hsuf.sublist.mem (mem_pstrip hm))⟩
    have hmem := mem_tok hc
    have hdec := List.mem_takeWhile_imp hmem
    exact of_decide_eq_true hdec

/-- Reparsing the reconstruction of any record with a nonempty name that
one line of the plain-list parser emitted yields the same record. -/
theorem parseLine_render {raw n v : Str}
    (h : parsePythonLine raw = LineRes.oneRec (n, v)) (hn0 : n ≠ []) :
    parsePythonLine (renderPy (n, v)) = LineRes.oneRec (n, v) := by
  simp only [parsePythonLine] at h
  by_cases h0 : pstrip raw = []
  · rw [if_pos h0] at h
    exact LineRes.noConfusion h
  rw [if_neg h0] at h
  by_cases h1 : (['#'] : Str).isPrefixOf (pstrip raw) = true
  · rw [if_pos h1] at h
    exact LineRes.noConfusion h
  rw [if_neg h1] at h
  by_cases h2 : startsAny (pstrip raw) dirPrefixes1 = true
  · rw [if_pos h2] at h
    exact LineRes.noConfusion h
  rw [if_neg h2] at h
  by_cases h3 : startsAny (pstrip raw) dirPrefixes2 = true
  · rw [if_pos h3] at h
    exact LineRes.noConfusion h
  rw [if_neg h3] at h
  have hH := bool_not_true h1
  have hd1 := bool_not_true h2
  have hd2 := bool_not_true h3
  obtain ⟨hpre2, hhash, hsemi2, hpstr⟩ := processedLine_spec (lstrip_pstrip raw)
  set l2 := processedLine (pstrip raw) with hl2def
  have hl2l : lstrip l2 = l2 := by
    conv_lhs => rw [← hpstr]
    exact (lstrip_pstrip l2).trans hpstr
  unfold parseBody at h
  split at h
  · obtain ⟨f1, f2, f3, f4, url, rfl, hu1, hu2, hu3⟩ :=
      parseVCS_inv hl2l hhash hsemi2 h
    have hrp : renderPy (n, '@' :: ' ' :: url) = n ++ ' ' :: '@' :: url := by
      simp only [renderPy]
      rw [if_neg (by simp)]
      have hp : (['@', ' '] : Str).isPrefixOf ('@' :: ' ' :: url) = true :=
        isPrefixOfAppend ['@', ' '] url
      rw [if_pos hp]
      rfl
    rw [hrp]
    exact reparse_vcs hn0 f1 f2 f3 hu1 hu2 hu3 (f4.trans hpre2) hH hd1 hd2
  · rename_i hcs
    split at h
    · rename_i heq
      rw [LineRes.oneRec.injEq, Prod.mk.injEq] at h
      obtain ⟨hn1, hv1⟩ := h
      subst hn1
      subst hv1
      have hrp : renderPy (l2, []) = l2 := by
        simp [renderPy]
      rw [hrp]
      exact reparse_fallback hn0 hpstr hhash hsemi2 (bool_not_true hcs) heq
        hpre2 hH hd1 hd2
    · rename_i n0 v0 heq
      rw [LineRes.oneRec.injEq, Prod.mk.injEq] at h
      obtain ⟨hn1, hv1⟩ := h
      subst hn1
      subst hv1
      obtain ⟨hne, hchars, hprefix, hvd⟩ := matchReq_inv heq
      have hprefix2 : n0 <+: l2 := by
        rw [← hl2l]
        exact hprefix
      rcases hvd with rfl | ⟨hvne, hvchars⟩
      · have hrp : renderPy (n0, []) = n0 := by
          simp [renderPy]
        rw [hrp]
        exact reparse_word hne hchars (hprefix2.trans hpre2) hH hd1 hd2
      · have hnp : (['@', ' '] : Str).isPrefixOf v0 = false := by
          by_contra hb
          rw [Bool.not_eq_false] at hb
          have hpv : (['@', ' '] : Str) <+: v0 := List.isPrefixOf_iff_prefix.mp hb
          have hm : ' ' ∈ v0 := hpv.sublist.mem (by simp)
          have hw := (versChar_props (hvchars ' ' hm)).1
          simp [isWS] at hw
        have hrp : renderPy (n0, v0) = n0 ++ '=' :: '=' :: v0 := by
          simp only [renderPy]
          rw [if_neg hvne, if_neg (by simp [hnp])]
        rw [hrp]
        exact reparse_pinned hne hchars hvne hvchars (hprefix2.trans hpre2) hH hd1 hd2

/-- Reparsing the rendered records of a successful plain-list parse in
which every record carries a nonempty name yields the same records. -/
theorem reparse_python {lines : List Str} {recs : List Rec}
    (h : parse_python_requirements lines = .ok recs)
    (hne : ∀ r ∈ recs, r.1 ≠ []) :
    parse_python_requirements (recs.map renderPy) = .ok recs := by
  induction lines generalizing recs with
  | nil =>
    simp only [parse_python_requirements] at h
    rw [Except.ok.injEq] at h
    subst h
    rfl
  | cons l ls ih =>
    simp only [parse_python_requirements] at h
    cases hpl : parsePythonLine l with
    | err =>
      rw [hpl] at h
      exact Except.noConfusion h
    | skip =>
      rw [hpl] at h
      have h2 : parse_python_requirements ls = Except.ok recs := h
      exact ih h2 hne
    | oneRec r =>
      rw [hpl] at h
      have h2 : (parse_python_requirements ls).map (r :: ·) = Except.ok recs := h
      cases hr : parse_python_requirements ls with
      | error e =>
        rw [hr] at h2
        exact Except.noConfusion h2
      | ok rs =>
        rw [hr] at h2
        simp only [Except.map] at h2
        rw [Except.ok.injEq] at h2
        subst h2
        have hr1 : r.1 ≠ [] := hne r (by simp)
        have hne2 : ∀ x ∈ rs, x.1 ≠ [] := fun x hx => hne x (by simp [hx])
        have hrec := ih hr hne2
        obtain ⟨n, v⟩ := r
        have hline := parseLine_render hpl hr1
        rw [List.map_cons]
        simp only [parse_python_requirements]
        rw [hline]
        show (parse_python_requirements (List.map renderPy rs)).map ((n, v) :: ·) =
          Except.ok ((n, v) :: rs)
        rw [hrec]
        rfl

/-! ### Block-record reconstruction -/

/-- A failing contains test on a cons splits into a failing head match
and a failing tail test. -/
theorem containsSeq_false_cons {pat : Str} {c : Char} {rest : Str}
    (h : containsSeq pat (c :: rest) = false) :
    pat.isPrefixOf (c :: rest) = false ∧ containsSeq pat rest = false := by
  unfold containsSeq at h
  rw [Bool.or_eq_false_iff] at h
  exact h

/-- The blank-line split on a cons whose head is not a newline. -/
theorem splitNN_cons_ne {c : Char} (rest : Str) (hc : c ≠ '\n') :
    splitNN (c :: rest) =
      match splitNN rest with | [] => [[c]] | r :: rs => (c :: r) :: rs := by
  rw [splitNN.eq_def]
  split
  · rename_i heq
    exact absurd heq (by simp)
  · rename_i rest1 heq
    rw [List.cons.injEq] at heq
    exact absurd heq.1 hc
  · rename_i c1 rest1 h1 heq
    rw [List.cons.injEq] at heq
    obtain ⟨rfl, rfl⟩ := heq
    rfl

/-- The blank-line split on a newline head not followed by another
newline. -/
theorem splitNN_cons_nl {rest : Str} (hr : rest.head? ≠ some '\n') :
    splitNN ('\n' :: rest) =
      match splitNN rest with | [] => [['\n']] | r :: rs => ('\n' :: r) :: rs := by
  rw [splitNN.eq_def]
  split
  · rename_i heq
    exact absurd heq (by simp)
  · rename_i rest1 heq
    rw [List.cons.injEq] at heq
    exact absurd (heq.2 ▸ rfl : rest.head? = some '\n') hr
  · rename_i c1 rest1 h1 heq
    rw [List.cons.injEq] at heq
    obtain ⟨rfl, rfl⟩ := heq
    rfl

/-- The blank-line split of a text with no blank-line boundary is the
single piece. -/
theorem splitNN_no : ∀ {l : Str},
    containsSeq ['\n', '\n'] l = false → splitNN l = [l]
  | [], _ => rfl
  | c :: rest, h => by
    obtain ⟨hp, hrest⟩ := containsSeq_false_cons h
    have ih := splitNN_no hrest
    by_cases hc : c = '\n'
    · subst hc
      have hhd : rest.head? ≠ some '\n' := by
        intro hb
        cases rest with
        | nil => exact Option.noConfusion hb
        | cons d t =>
          rw [List.head?_cons, Option.some.injEq] at hb
          subst hb
          simp [List.isPrefixOf] at hp
      rw [splitNN_cons_nl hhd, ih]
    · rw [splitNN_cons_ne rest hc, ih]

/-- The blank-line split after a boundary-free piece and a blank-line
separator. -/
theorem splitNN_append_sep : ∀ (b rest : Str),
    containsSeq ['\n', '\n'] b = false → b.getLast? ≠ some '\n' →
    splitNN (b ++ '\n' :: '\n' :: rest) = b :: splitNN rest
  | [], rest, _, _ => by simp [splitNN]
  | c :: b2, rest, h1, h2 => by
    obtain ⟨hp, h1b⟩ := containsSeq_false_cons h1
    have h2b : b2.getLast? ≠ some '\n' := by
      cases b2 with
      | nil => simp
      | cons d t =>
        rw [List.getLast?_cons_cons] at h2
        exact h2
    have ih := splitNN_append_sep b2 rest h1b h2b
    rw [List.cons_append]
    by_cases hc : c = '\n'
    · subst hc
      have hhd : (b2 ++ '\n' :: '\n' :: rest).head? ≠ some '\n' := by
        cases b2 with
        | nil =>
          exfalso
          exact h2 (by simp)
        | cons d t =>
          intro hb
          rw [List.cons_append, List.head?_cons, Option.some.injEq] at hb
          subst hb
          simp [List.isPrefixOf] at hp
      rw [splitNN_cons_nl hhd, ih]
    · rw [splitNN_cons_ne _ hc, ih]

/-- Reconstruction of the lockfile text: the blocks joined by blank-line
separators. -/
def joinNN : List Str → Str
  | [] => []
  | [b] => b
  | b :: bs => b ++ '\n' :: '\n' :: joinNN bs

/-- Splitting the joined blocks recovers them when no block holds a
blank-line boundary or ends with a newline. -/
theorem splitNN_joinNN : ∀ {bs : List Str}, bs ≠ [] →
    (∀ b ∈ bs, containsSeq ['\n', '\n'] b = false ∧ b.getLast? ≠ some '\n') →
    splitNN (joinNN bs) = bs
  | [], h, _ => absurd rfl h
  | [b], _, hb => by
    rw [show joinNN [b] = b from rfl]
    exact splitNN_no (hb b (by simp)).1
  | b :: b2 :: bs, _, hb => by
    rw [show joinNN (b :: b2 :: bs) = b ++ '\n' :: '\n' :: joinNN (b2 :: bs) from rfl]
    rw [splitNN_append_sep b _ (hb b (by simp)).1 (hb b (by simp)).2]
    rw [splitNN_joinNN (by simp) (fun x hx => hb x (by simp [hx]))]

/-- The line split on a cons whose head is not a newline. -/
theorem splitNlAux_cons_ne {c : Char} (rest : Str) (hc : c ≠ '\n') :
    splitNlAux (c :: rest) =
      match splitNlAux rest with | [] => [[c]] | r :: rs => (c :: r) :: rs := by
  rw [splitNlAux.eq_def]
  split
  · rename_i heq
    exact absurd heq (by simp)
  · rename_i rest1 heq
    rw [List.cons.injEq] at heq
    exact absurd heq.1 hc
  · rename_i c1 rest1 h1 heq
    rw [List.cons.injEq] at heq
    obtain ⟨rfl, rfl⟩ := heq
    rfl

/-- The line split of a newline-free text is the single piece. -/
theorem splitNlAux_no : ∀ {l : Str}, '\n' ∉ l → splitNlAux l = [l]
  | [], _ => rfl
  | c :: rest, h => by
    have hc : c ≠ '\n' := fun hx => h (by simp [hx])
    rw [splitNlAux_cons_ne rest hc, splitNlAux_no (fun hx => h (by simp [hx]))]

/-- The line split after a newline-free piece and a newline. -/
theorem splitNlAux_append_sep : ∀ (a b : Str), '\n' ∉ a →
    splitNlAux (a ++ '\n' :: b) = a :: splitNlAux b
  | [], b, _ => by simp [splitNlAux]
  | c :: a2, b, h => by
    have hc : c ≠ '\n' := fun hx => h (by simp [hx])
    rw [List.cons_append, splitNlAux_cons_ne _ hc,
      splitNlAux_append_sep a2 b (fun hx => h (by simp [hx]))]

/-- splitlines of two newline-free lines joined by one newline. -/
theorem splitlines_pair {a b : Str} (ha : '\n' ∉ a) (hb : '\n' ∉ b) (hbne : b ≠ []) :
    splitlines (a ++ '\n' :: b) = [a, b] := by
  unfold splitlines
  rw [if_neg (by simp)]
  have hlast : ¬ (a ++ '\n' :: b).getLast? = some '\n' := by
    intro hcon
    rw [List.getLast?_append_of_ne_nil a (by simp)] at hcon
    rw [show ('\n' :: b : Str) = ['\n'] ++ b from rfl,
      List.getLast?_append_of_ne_nil ['\n'] hbne] at hcon
    obtain ⟨hne2, heq⟩ := List.mem_getLast?_eq_getLast hcon
    exact hb (heq ▸ List.getLast_mem hne2)
  rw [if_neg hlast, splitNlAux_append_sep a b ha, splitNlAux_no hb]

/-- The comma split on a cons whose head is not a comma. -/
theorem splitComma_cons_ne {c : Char} (rest : Str) (hc : c ≠ ',') :
    splitComma (c :: rest) =
      match splitComma rest with | [] => [[c]] | r :: rs => (c :: r) :: rs := by
  rw [splitComma.eq_def]
  split
  · rename_i heq
    exact absurd heq (by simp)
  · rename_i rest1 heq
    rw [List.cons.injEq] at heq
    exact absurd heq.1 hc
  · rename_i c1 rest1 h1 heq
    rw [List.cons.injEq] at heq
    obtain ⟨rfl, rfl⟩ := heq
    rfl

/-- The comma split of a comma-free text is the single piece. -/
theorem splitComma_no : ∀ {l : Str}, ',' ∉ l → splitComma l = [l]
  | [], _ => rfl
  | c :: rest, h => by
    have hc : c ≠ ',' := fun hx => h (by simp [hx])
    rw [splitComma_cons_ne rest hc, splitComma_no (fun hx => h (by simp [hx]))]

/-- The blank-line pattern does not match at a head that is not a
newline. -/
theorem isPrefixOf_nn_false {c : Char} {rest : Str} (hc : c ≠ '\n') :
    (['\n', '\n'] : Str).isPrefixOf (c :: rest) = false := by
  cases hp : (['\n', '\n'] : Str).isPrefixOf (c :: rest) with
  | false => rfl
  | true =>
    rw [List.isPrefixOf_iff_prefix, List.cons_prefix_cons] at hp
    exact absurd hp.1.symm hc

/-- The blank-line pattern does not match at a newline whose successor
is not a newline. -/
theorem isPrefixOf_nn_single {rest : Str} (hr : rest.head? ≠ some '\n') :
    (['\n', '\n'] : Str).isPrefixOf ('\n' :: rest) = false := by
  cases hp : (['\n', '\n'] : Str).isPrefixOf ('\n' :: rest) with
  | false => rfl
  | true =>
    rw [List.isPrefixOf_iff_prefix, List.cons_prefix_cons] at hp
    obtain ⟨-, hp2⟩ := hp
    cases rest with
    | nil => simp at hp2
    | cons d t =>
      rw [List.cons_prefix_cons] at hp2
      exact (hr (by rw [List.head?_cons, ← hp2.1])).elim

/-- A newline-free text holds no blank-line boundary. -/
theorem containsSeq_nn_all : ∀ {l : Str}, '\n' ∉ l →
    containsSeq ['\n', '\n'] l = false
  | [], _ => rfl
  | c :: rest, h => by
    have hc : c ≠ '\n' := fun hx => h (by simp [hx])
    unfold containsSeq
    rw [containsSeq_nn_all (fun hx => h (by simp [hx])), Bool.or_false]
    exact isPrefixOf_nn_false hc

/-- A newline-free prefix adds no blank-line boundary. -/
theorem containsSeq_nn_append {A B : Str} (hA : '\n' ∉ A)
    (hB : containsSeq ['\n', '\n'] B = false) :
    containsSeq ['\n', '\n'] (A ++ B) = false := by
  induction A with
  | nil => exact hB
  | cons c A2 ih =>
    have hc : c ≠ '\n' := fun hx => hA (by simp [hx])
    rw [List.cons_append]
    unfold containsSeq
    rw [ih (fun hx => hA (by simp [hx])), Bool.or_false]
    exact isPrefixOf_nn_false hc

/-- Dropping leading quotes is the identity when the head is not a
quote. -/
theorem dropWhile_quote_id {x : Str} (h1 : x.head? ≠ some '"') :
    x.dropWhile (· = '"') = x := by
  cases x with
  | nil => rfl
  | cons d t =>
    have hd : ¬ d = '"' := fun hx => h1 (by rw [List.head?_cons, hx])
    rw [List.dropWhile_cons, if_neg (by simp [hd])]

/-- Stripping quotes from a quote-wrapped text recovers the text when
its own edges are not quotes. -/
theorem stripQ_wrap {x : Str} (h1 : x.head? ≠ some '"') (h2 : x.getLast? ≠ some '"') :
    stripQ ('"' :: x ++ ['"']) = x := by
  cases x with
  | nil => rfl
  | cons d t =>
    unfold stripQ
    have hd : ¬ d = '"' := fun hx => h1 (by rw [List.head?_cons, hx])
    have e1 : ('"' :: (d :: t) ++ ['"'] : Str).dropWhile (· = '"') = (d :: t) ++ ['"'] := by
      rw [show ('"' :: (d :: t) ++ ['"'] : Str) = '"' :: ((d :: t) ++ ['"']) from rfl]
      rw [List.dropWhile_cons, if_pos (by simp)]
      rw [List.cons_append, List.dropWhile_cons, if_neg (by simp [hd])]
    rw [e1]
    rw [List.reverse_append]
    rw [show ((['"'] : Str).reverse ++ (d :: t).reverse : Str) = '"' :: (d :: t).reverse from rfl]
    rw [List.dropWhile_cons, if_pos (by simp)]
    have h3 : ((d :: t).reverse).dropWhile (· = '"') = (d :: t).reverse := by
      apply dropWhile_quote_id
      rw [List.head?_reverse]
      exact h2
    rw [h3, List.reverse_reverse]

/-- rfind fails on an at-free text. -/
theorem lastAtIdx_no : ∀ {l : Str}, '@' ∉ l → lastAtIdx l = none
  | [], _ => rfl
  | c :: rest, h => by
    unfold lastAtIdx
    rw [lastAtIdx_no (fun hx => h (by simp [hx]))]
    show (if c = '@' then some 0 else none : Option Nat) = none
    rw [if_neg (fun hx => h (by simp [hx]))]

/-- rfind of the separating at sign when the tail is at-free. -/
theorem lastAtIdx_append_at : ∀ (a b : Str), '@' ∉ b →
    lastAtIdx (a ++ '@' :: b) = some a.length
  | [], b, h => by
    show lastAtIdx ('@' :: b) = some 0
    unfold lastAtIdx
    rw [lastAtIdx_no h]
    show (if '@' = '@' then some 0 else none : Option Nat) = some 0
    rw [if_pos rfl]
  | c :: a2, b, h => by
    rw [List.cons_append]
    unfold lastAtIdx
    rw [lastAtIdx_append_at a2 b h]
    rfl

/-- The specifier name before the separating at sign is recovered when
the name is nonempty and the range is at-free. -/
theorem specName_append {n v : Str} (hn : n ≠ []) (hv : '@' ∉ v) :
    specName (n ++ '@' :: v) = n := by
  simp only [specName]
  rw [lastAtIdx_append_at n v hv]
  show (if (n.length : Int) ≤ 0 then n ++ '@' :: v
    else (n ++ '@' :: v).take ((n.length : Int)).toNat) = n
  rw [if_neg (by
    simp only [not_le]
    exact_mod_cast List.length_pos.mpr hn)]
  rw [show ((n.length : Int)).toNat = n.length from rfl]
  exact List.take_left n ('@' :: v)

/-- Header line of a reconstructed block: the quoted name-at-range
specifier followed by a colon. -/
def yHeader (n v : Str) : Str := '"' :: n ++ '@' :: v ++ ['"', ':']

/-- Version line of a reconstructed block: two spaces of indentation,
the version keyword, and the quoted resolved version. -/
def yVersion (v : Str) : Str := ' ' :: ' ' :: ("version ".data ++ '"' :: v ++ ['"'])

/-- Textual reconstruction of one block-record parser record. -/
def renderYarn : Rec → Str
  | (n, v) => yHeader n v ++ '\n' :: yVersion v

/-- The header line reshaped as a list ending in the colon. -/
theorem yHeader_eq (n v : Str) :
    yHeader n v = ('"' :: (n ++ '@' :: v ++ ['"'])) ++ [':'] := by
  unfold yHeader
  simp

/-- The header line ends with a colon. -/
theorem yHeader_getLast (n v : Str) : (yHeader n v).getLast? = some ':' := by
  rw [yHeader_eq, List.getLast?_concat]

/-- The header line has no newline when name and range have none. -/
theorem yHeader_nl {n v : Str} (h1 : '\n' ∉ n) (h2 : '\n' ∉ v) :
    '\n' ∉ yHeader n v := by
  intro hm
  unfold yHeader at hm
  rcases List.mem_append.mp hm with hm | hm
  · rcases List.mem_append.mp hm with hm | hm
    · rcases List.mem_cons.mp hm with h | hm
      · exact absurd h (by decide)
      · exact h1 hm
    · rcases List.mem_cons.mp hm with h | hm
      · exact absurd h (by decide)
      · exact h2 hm
  · exact absurd hm (by decide)

/-- The version line has no newline when the version has none. -/
theorem yVersion_nl {v : Str} (h2 : '\n' ∉ v) : '\n' ∉ yVersion v := by
  intro hm
  unfold yVersion at hm
  rcases List.mem_cons.mp hm with h | hm
  · exact absurd h (by decide)
  rcases List.mem_cons.mp hm with h | hm
  · exact absurd h (by decide)
  rcases List.mem_append.mp hm with hm | hm
  · rcases List.mem_append.mp hm with hm | hm
    · exact absurd hm (by decide)
    · rcases List.mem_cons.mp hm with h | hm
      · exact absurd h (by decide)
      · exact h2 hm
  · exact absurd hm (by decide)

/-- The strip of the header line is the identity. -/
theorem yHeader_pstrip (n v : Str) : pstrip (yHeader n v) = yHeader n v := by
  have hl : ∀ d, (yHeader n v).getLast? = some d → isWS d = false := by
    intro d hd
    rw [yHeader_getLast, Option.some.injEq] at hd
    subst hd
    decide
  rw [show yHeader n v = '"' :: (n ++ '@' :: v ++ ['"', ':']) from rfl] at hl ⊢
  exact pstrip_eq_self (by decide) hl

/-- The right strip of the header line is the identity. -/
theorem yHeader_rstrip (n v : Str) : rstrip (yHeader n v) = yHeader n v := by
  apply rstrip_eq_self
  intro d hd
  rw [yHeader_getLast, Option.some.injEq] at hd
  subst hd
  decide

/-- The version line reshaped as a list ending in the closing quote. -/
theorem yVersion_eq (v : Str) :
    yVersion v = (' ' :: ' ' :: ("version ".data ++ '"' :: v)) ++ ['"'] := by
  unfold yVersion
  simp

/-- The version line ends with the closing quote. -/
theorem yVersion_getLast (v : Str) : (yVersion v).getLast? = some '"' := by
  rw [yVersion_eq, List.getLast?_concat]

/-- The right strip of the version line is the identity. -/
theorem yVersion_rstrip (v : Str) : rstrip (yVersion v) = yVersion v := by
  apply rstrip_eq_self
  intro d hd
  rw [yVersion_getLast, Option.some.injEq] at hd
  subst hd
  decide

/-- The strip of the version line removes exactly the indentation. -/
theorem yVersion_pstrip (v : Str) :
    pstrip (yVersion v) = "version ".data ++ '"' :: v ++ ['"'] := by
  show rstrip (lstrip (' ' :: ' ' :: ("version ".data ++ '"' :: v ++ ['"']))) = _
  rw [show lstrip (' ' :: ' ' :: ("version ".data ++ '"' :: v ++ ['"'])) =
      ("version ".data ++ '"' :: v ++ ['"'] : Str) from by
    unfold lstrip
    rw [List.dropWhile_cons, if_pos (by decide), List.dropWhile_cons, if_pos (by decide)]
    rw [show ("version ".data ++ '"' :: v ++ ['"'] : Str) =
      'v' :: ("ersion ".data ++ '"' :: v ++ ['"']) from rfl]
    rw [List.dropWhile_cons, if_neg (by decide)]]
  apply rstrip_eq_self
  intro d hd
  rw [show ("version ".data ++ '"' :: v ++ ['"'] : Str) =
    (("version ".data ++ '"' :: v) ++ ['"'] : Str) from by simp] at hd
  rw [List.getLast?_concat, Option.some.injEq] at hd
  subst hd
  decide

/-- The specifier list of the reconstructed header: one specifier, the
raw name-at-range text. -/
theorem header_spec {n v : Str} (hn : n ≠ []) (hq1 : n.head? ≠ some '"')
    (hq3 : v.getLast? ≠ some '"') (hc1 : ',' ∉ n) (hc2 : ',' ∉ v) :
    (splitComma (yHeader n v).dropLast).map (fun s => stripQ (pstrip s)) =
      [n ++ '@' :: v] := by
  have hdl : (yHeader n v).dropLast = '"' :: (n ++ '@' :: v) ++ ['"'] := by
    rw [yHeader_eq, List.dropLast_concat]
    rfl
  rw [hdl]
  have hcomma : ',' ∉ ('"' :: (n ++ '@' :: v) ++ ['"'] : Str) := by
    intro hm
    rcases List.mem_append.mp hm with hm | hm
    · rcases List.mem_cons.mp hm with h | hm
      · exact absurd h (by decide)
      rcases List.mem_append.mp hm with hm | hm
      · exact hc1 hm
      rcases List.mem_cons.mp hm with h | hm
      · exact absurd h (by decide)
      · exact hc2 hm
    · exact absurd hm (by decide)
  rw [splitComma_no hcomma, List.map_cons, List.map_nil]
  have hx1 : (n ++ '@' :: v).head? ≠ some '"' := by
    cases n with
    | nil => exact absurd rfl hn
    | cons a t => exact fun hcon => hq1 hcon
  have hx2 : (n ++ '@' :: v).getLast? ≠ some '"' := by
    rw [List.getLast?_append_of_ne_nil n (by simp)]
    cases v with
    | nil => exact (by decide : ¬ (['@'] : Str).getLast? = some '"')
    | cons d t =>
      rw [List.getLast?_cons_cons]
      exact hq3
  have hps : pstrip ('"' :: (n ++ '@' :: v) ++ ['"'] : Str) =
      '"' :: (n ++ '@' :: v) ++ ['"'] := by
    show pstrip ('"' :: ((n ++ '@' :: v) ++ ['"'])) = '"' :: (n ++ '@' :: v) ++ ['"']
    apply pstrip_eq_self (by decide)
    intro d hd
    have hl2 : ('"' :: ((n ++ '@' :: v) ++ ['"']) : Str).getLast? = some '"' := by
      rw [show ('"' :: ((n ++ '@' :: v) ++ ['"']) : Str) =
        ('"' :: (n ++ '@' :: v)) ++ ['"'] from rfl]
      exact List.getLast?_concat _
    rw [hl2, Option.some.injEq] at hd
    subst hd
    decide
  rw [hps, stripQ_wrap hx1 hx2]

/-- The version scan of the reconstructed version line recovers the
version. -/
theorem findVersion_render {v : Str} (hq2 : v.head? ≠ some '"')
    (hq3 : v.getLast? ≠ some '"') : findVersion [yVersion v] = v := by
  simp only [findVersion]
  rw [yVersion_pstrip]
  have hp : ("version ".data).isPrefixOf ("version ".data ++ '"' :: v ++ ['"'] : Str) = true := by
    have h0 := isPrefixOfAppend ("version ".data) ('"' :: (v ++ ['"']))
    exact h0
  rw [if_pos hp]
  rw [show (("version ".data ++ '"' :: v ++ ['"'] : Str)).drop 8 = ('"' :: v) ++ ['"'] from rfl]
  have hps : pstrip (('"' :: v) ++ ['"'] : Str) = ('"' :: v) ++ ['"'] := by
    show pstrip ('"' :: (v ++ ['"'])) = ('"' :: v) ++ ['"']
    apply pstrip_eq_self (by decide)
    intro d hd
    have hl3 : ('"' :: (v ++ ['"']) : Str).getLast? = some '"' := by
      rw [show ('"' :: (v ++ ['"']) : Str) = ('"' :: v) ++ ['"'] from rfl]
      exact List.getLast?_concat _
    rw [hl3, Option.some.injEq] at hd
    subst hd
    decide
  rw [hps]
  exact stripQ_wrap hq2 hq3

/-- Parsing the reconstructed block of a record whose name is nonempty
and quote-edge-free and whose version is at-free, comma-free and
quote-edge-free yields that record back. -/
theorem parseBlock_render {n v : Str}
    (hn : n ≠ []) (hnl1 : '\n' ∉ n) (hc1 : ',' ∉ n) (hq1 : n.head? ≠ some '"')
    (hnl2 : '\n' ∉ v) (hc2 : ',' ∉ v) (hat : '@' ∉ v)
    (hq2 : v.head? ≠ some '"') (hq3 : v.getLast? ≠ some '"') :
    parseBlock (renderYarn (n, v)) = [(n, v)] := by
  have hbl : blockLines (renderYarn (n, v)) = [yHeader n v, yVersion v] := by
    show blockLines (yHeader n v ++ '\n' :: yVersion v) = _
    unfold blockLines
    rw [splitlines_pair (yHeader_nl hnl1 hnl2) (yVersion_nl hnl2)
      (by unfold yVersion; simp)]
    rw [List.filter_cons, List.filter_cons, List.filter_nil]
    rw [if_pos (by rw [yHeader_pstrip]; unfold yHeader; simp),
      if_pos (by rw [yVersion_pstrip]; simp)]
    rw [List.map_cons, List.map_cons, List.map_nil, yHeader_rstrip, yVersion_rstrip]
  unfold parseBlock
  rw [hbl]
  simp only [parseBlockLines]
  rw [if_pos (yHeader_getLast n v)]
  rw [header_spec hn hq1 hq3 hc1 hc2]
  rw [findVersion_render hq2 hq3]
  simp only [List.foldr_cons, List.foldr_nil]
  rw [if_neg (show ¬(n ++ '@' :: v = []) from by cases n <;> simp)]
  rw [specName_append hn hat]

/-- A reconstructed block holds no blank-line boundary when name and
version are newline-free. -/
theorem renderYarn_nn {n v : Str} (h1 : '\n' ∉ n) (h2 : '\n' ∉ v) :
    containsSeq ['\n', '\n'] (renderYarn (n, v)) = false := by
  show containsSeq ['\n', '\n'] (yHeader n v ++ '\n' :: yVersion v) = false
  apply containsSeq_nn_append (yHeader_nl h1 h2)
  unfold containsSeq
  rw [containsSeq_nn_all (yVersion_nl h2), Bool.or_false]
  apply isPrefixOf_nn_single
  rw [show (yVersion v).head? = some ' ' from rfl]
  simp

/-- A reconstructed block ends with the closing quote of its version
line, not with a newline. -/
theorem renderYarn_getLast {n v : Str} :
    (renderYarn (n, v)).getLast? ≠ some '\n' := by
  show (yHeader n v ++ '\n' :: yVersion v).getLast? ≠ some '\n'
  rw [List.getLast?_append_of_ne_nil _ (by simp)]
  rw [show ('\n' :: yVersion v : Str) = ['\n'] ++ yVersion v from rfl,
    List.getLast?_append_of_ne_nil _ (by unfold yVersion; simp)]
  rw [yVersion_getLast]
  simp

/-- Conditions under which a block-record parser record reconstructs
exactly: nonempty name without newline, comma or a leading quote, and a
version without newline, comma, at sign or quote edges. -/
def yarnSafe (r : Rec) : Prop :=
  r.1 ≠ [] ∧ '\n' ∉ r.1 ∧ ',' ∉ r.1 ∧ r.1.head? ≠ some '"' ∧
    '\n' ∉ r.2 ∧ ',' ∉ r.2 ∧ '@' ∉ r.2 ∧ r.2.head? ≠ some '"' ∧
    r.2.getLast? ≠ some '"'

/-- Parsing the reconstructed blocks of safe records, block by block,
yields the records back. -/
theorem foldr_parseBlock : ∀ {recs : List Rec}, (∀ r ∈ recs, yarnSafe r) →
    ((recs.map renderYarn).foldr (fun b acc => parseBlock b ++ acc) []) = recs
  | [], _ => rfl
  | r :: rs, h => by
    rw [List.map_cons, List.foldr_cons]
    obtain ⟨n, v⟩ := r
    obtain ⟨f1, f2, f3, f4, f5, f6, f7, f8, f9⟩ := h (n, v) (by simp)
    rw [parseBlock_render f1 f2 f3 f4 f5 f6 f7 f8 f9]
    rw [foldr_parseBlock (fun x hx => h x (by simp [hx]))]
    rfl

/-- Reparsing the joined reconstructed blocks of a successful
block-record parse of safe records yields the same records. -/
theorem reparse_yarn {recs : List Rec} (h : ∀ r ∈ recs, yarnSafe r) :
    parse_yarn_lock (joinNN (recs.map renderYarn)) = recs := by
  cases recs with
  | nil => rfl
  | cons r rs =>
    have hfacts : ∀ b ∈ (r :: rs).map renderYarn,
        containsSeq ['\n', '\n'] b = false ∧ b.getLast? ≠ some '\n' := by
      intro b hb
      rw [List.mem_map] at hb
      obtain ⟨x, hx, rfl⟩ := hb
      obtain ⟨n, v⟩ := x
      obtain ⟨f1, f2, f3, f4, f5, f6, f7, f8, f9⟩ := h (n, v) hx
      exact ⟨renderYarn_nn f2 f5, renderYarn_getLast⟩
    unfold parse_yarn_lock
    rw [splitNN_joinNN (by simp) hfacts]
    exact foldr_parseBlock h

/-- C5: re-parsing the textual reconstruction of the plain-list parser
output yields the same records when every record has a nonempty name,
and re-parsing the joined reconstructed blocks of a block-record parse
yields the same records when every record has a nonempty name free of
newline, comma and a leading quote and a version free of newline, comma,
at sign and quote edges. Without these conditions idempotence fails, as
the counterexample shows. -/
theorem claim_C5 {lines : List Str} {recs : List Rec}
    (h1 : parse_python_requirements lines = Except.ok recs)
    (h2 : ∀ r ∈ recs, r.1 ≠ [])
    (content : Str) (h3 : ∀ r ∈ parse_yarn_lock content, yarnSafe r) :
    parse_python_requirements (recs.map renderPy) = Except.ok recs ∧
      parse_yarn_lock (joinNN ((parse_yarn_lock content).map renderYarn)) =
        parse_yarn_lock content :=
  ⟨reparse_python h1 h2, reparse_yarn h3⟩

/-- C5 counterexample: the plain-list parser on the line of an
environment marker with empty package part emits a record with an empty
name whose reconstruction reparses to no records, and the block-record
parser on a version holding an at sign emits a record whose
reconstruction reparses with a different name. -/
theorem claim_C5_counterexample :
    (parse_python_requirements [";x".data] =
        Except.ok [(([] : Str), ([] : Str))] ∧
      parse_python_requirements
        (([(([] : Str), ([] : Str))] : List Rec).map renderPy) = Except.ok []) ∧
    (parse_yarn_lock "\"p@r\":\n  version \"1@2\"".data =
        [("p".data, "1@2".data)] ∧
      parse_yarn_lock (joinNN ((parse_yarn_lock
          "\"p@r\":\n  version \"1@2\"".data).map renderYarn)) =
        [("p@1".data, "1@2".data)]) :=
  ⟨⟨rfl, rfl⟩, by decide, by decide⟩

/-- C5 witness: the conditioned idempotence at one plain-list record and
one block-record lockfile. -/
theorem claim_C5_witness :
    parse_python_requirements
        (([("requests".data, "2.31.0".data)] : List Rec).map renderPy) =
      Except.ok [("requests".data, "2.31.0".data)] ∧
    parse_yarn_lock (joinNN ((parse_yarn_lock
        "\"left-pad@^1.3.0\":\n  version \"1.3.0\"".data).map renderYarn)) =
      parse_yarn_lock "\"left-pad@^1.3.0\":\n  version \"1.3.0\"".data :=
  @claim_C5 ["requests==2.31.0".data] [("requests".data, "2.31.0".data)]
    rfl (by decide) "\"left-pad@^1.3.0\":\n  version \"1.3.0\"".data
    (by simp only [yarnSafe]; decide)
